import Mathlib

/-!
Verification of the bank-statement extraction pipeline (extractor / chunker /
salvage cascade / record normalizer / deduplicator).

Python strings are modelled as `List Char` (sequences of code points); Python
floats are modelled exactly as decimals `mant * 10 ^ exp` (`Dec` below) plus
the special values `nan` and `inf` (`PyFloat`): every operation the pipeline
performs on numbers (decimal parsing, negation, equality) is exact, so the
rational model is faithful on them.
-/

/-! ### Python string primitives -/

/-- Python whitespace (the characters `str.strip()` and `re`'s `\s` treat as
whitespace, ASCII range). -/
def pyWs (c : Char) : Bool :=
  c = ' ' || c = '\t' || c = '\n' || c = '\r' || c = '\x0b' || c = '\x0c'

/-- `str.lstrip()`. -/
def pyLstrip (s : List Char) : List Char := s.dropWhile (fun c => pyWs c)

/-- `str.rstrip()`. -/
def pyRstrip (s : List Char) : List Char :=
  (s.reverse.dropWhile (fun c => pyWs c)).reverse

/-- `str.strip()`. -/
def pyStrip (s : List Char) : List Char := pyRstrip (pyLstrip s)

/-- A Lean string literal as a Python string value. -/
def pys (s : String) : List Char := s.data

/-- Index of the last occurrence of `c` in `l` (innermost helper of
Python's `str.rfind` for single characters). -/
def lastIdxOf (c : Char) : List Char → Option Nat
  | [] => none
  | a :: t =>
    match lastIdxOf c t with
    | some i => some (i + 1)
    | none => if a = c then some 0 else none

/-- Python `text.rfind(ch, start, stop)`: highest index `i` with
`start ≤ i < stop` (and `i < len(text)`) such that `text[i] = ch`;
`none` models the return value `-1`. -/
def pyRfindChar (text : List Char) (c : Char) (start stop : Nat) : Option Nat :=
  (lastIdxOf c ((text.take stop).drop start)).map (· + start)

/-- Python slice `text[start:stop]` (for `0 ≤ start ≤ stop`). -/
def pySlice (text : List Char) (start stop : Nat) : List Char :=
  (text.take stop).drop start

/-! ### utils.chunk_text

```python
def chunk_text(text, chunk_size=6000, max_chars=None):
    size = max_chars or chunk_size
    chunks = []
    start = 0
    while start < len(text):
        end = start + size
        if end < len(text):
            newline = text.rfind('\n', start, end)
            if newline > start:
                end = newline
        chunks.append(text[start:end].strip())
        start = end
    return [c for c in chunks if c]
```

The loop advances `start` by at least one position per iteration whenever
`size ≥ 1`, so `text.length` steps of fuel always suffice. -/

/-- One step of the `while` loop computes the end index of the current chunk. -/
def chunkEnd (text : List Char) (size start : Nat) : Nat :=
  let e0 := start + size
  if e0 < text.length then
    match pyRfindChar text '\n' start e0 with
    | some nl => if start < nl then nl else e0
    | none => e0
  else e0

/-- The `while` loop of `chunk_text`, before the final filter: the list of
`text[start:end].strip()` values appended by the loop. -/
def chunkLoop (text : List Char) (size : Nat) : Nat → Nat → List (List Char)
  | 0, _ => []
  | fuel + 1, start =>
    if start < text.length then
      let e := chunkEnd text size start
      pySlice text start e :: chunkLoop text size fuel e
    else []

/-- The unstripped chunk slices `text[start:end]` produced by the loop. -/
def chunkSlices (text : List Char) (size : Nat) : List (List Char) :=
  chunkLoop text size text.length 0

/-- `utils.chunk_text` with the effective size already resolved
(`size = max_chars or chunk_size`): strip each slice, drop empty chunks. -/
def chunk_text (text : List Char) (size : Nat) : List (List Char) :=
  ((chunkSlices text size).map pyStrip).filter (fun c => !c.isEmpty)

/-! ### Exact decimals and Python floats

`Dec` is the exact value `mant * 10 ^ exp`.  All numeric values the pipeline
manipulates are decimal literals, so this representation is exact; equality of
values is `Dec.beq` (cross-multiplied), Python float `==` is `PyFloat.peq`
(`nan` compares unequal to everything, as in IEEE). -/

structure Dec where
  mant : Int
  exp : Int
deriving DecidableEq

/-- Numeric-value equality of two decimals. -/
def Dec.beq (a b : Dec) : Bool :=
  let m := min a.exp b.exp
  a.mant * (10 : Int) ^ (a.exp - m).toNat == b.mant * (10 : Int) ^ (b.exp - m).toNat

/-- A Python float: an exact decimal, `nan`, or a signed infinity. -/
inductive PyFloat where
  | finite (d : Dec)
  | nan
  | inf (pos : Bool)
deriving DecidableEq

/-- The float `0.0`. -/
def PyFloat.zero : PyFloat := .finite ⟨0, 0⟩

/-- Python unary minus on floats (`-nan` is `nan`). -/
def PyFloat.neg : PyFloat → PyFloat
  | .finite a => .finite ⟨-a.mant, a.exp⟩
  | .nan => .nan
  | .inf p => .inf (!p)

/-- Python `==` on floats: `nan == x` is always `False`; finite values compare
by numeric value. -/
def PyFloat.peq : PyFloat → PyFloat → Bool
  | .finite a, .finite b => Dec.beq a b
  | .inf p, .inf q => p == q
  | _, _ => false

/-- Decimal digit test. -/
def isDigitCh (c : Char) : Bool := '0' ≤ c && c ≤ '9'

/-- Split a leading run of decimal digits off a character list. -/
def takeDigits : List Char → List Char × List Char
  | c :: cs =>
    if isDigitCh c then
      let (ds, r) := takeDigits cs
      (c :: ds, r)
    else ([], c :: cs)
  | [] => ([], [])

/-- The natural number denoted by a digit run. -/
def digitsToNat (ds : List Char) : Nat :=
  ds.foldl (fun acc c => acc * 10 + (c.toNat - '0'.toNat)) 0

/-- Case-insensitive comparison against a fixed lower-case word. -/
def lowerIs (s : List Char) (t : List Char) : Bool := s.map Char.toLower == t

/-- Python's `float(str)` builtin on an arbitrary string: optional surrounding
whitespace and sign; `inf`/`infinity`/`nan` case-insensitively; else a decimal
`digits [. digits] [exponent]` (either digit part may be empty but not both).
Underscored digit groups (PEP 515) are not modelled.  `none` models `ValueError`. -/
def pyFloatOfStr (s0 : List Char) : Option PyFloat :=
  let s := pyStrip s0
  let (sgn, s1) : Int × List Char :=
    match s with
    | '+' :: r => (1, r)
    | '-' :: r => (-1, r)
    | _ => (1, s)
  if lowerIs s1 (pys "nan") then some .nan
  else if lowerIs s1 (pys "inf") || lowerIs s1 (pys "infinity") then some (.inf (sgn = 1))
  else
    let (ids, r1) := takeDigits s1
    let (fds, r2) :=
      match r1 with
      | '.' :: t => takeDigits t
      | _ => ([], r1)
    if ids.isEmpty && fds.isEmpty then none
    else
      match r2 with
      | [] => some (.finite ⟨sgn * digitsToNat (ids ++ fds), -(fds.length : Int)⟩)
      | 'e' :: t | 'E' :: t =>
        let (esgn, t1) : Int × List Char :=
          match t with
          | '+' :: u => (1, u)
          | '-' :: u => (-1, u)
          | _ => (1, t)
        let (eds, t2) := takeDigits t1
        if eds.isEmpty || !t2.isEmpty then none
        else some (.finite ⟨sgn * digitsToNat (ids ++ fds),
                            esgn * digitsToNat eds - (fds.length : Int)⟩)
      | _ => none

/-! ### JSON values (results of `json.loads`)

Numbers keep Python's int/float distinction in the `isInt` flag (an int lexeme
always has `exp = 0`).  `jnan` / `jinf` model the `NaN` / `Infinity` /
`-Infinity` constants Python's `json` module accepts by default.  Objects keep
their member list in parse order; lookups take the last binding of a key,
matching `dict` construction from duplicate keys. -/

inductive JVal where
  | jnull
  | jbool (b : Bool)
  | jnum (isInt : Bool) (v : Dec)
  | jnan
  | jinf (pos : Bool)
  | jstr (s : List Char)
  | jarr (elems : List JVal)
  | jobj (members : List (List Char × JVal))

/-- `val is None`. -/
def JVal.isNull : JVal → Bool
  | .jnull => true
  | _ => false

/-- `isinstance(val, list)`. -/
def JVal.isList : JVal → Bool
  | .jarr _ => true
  | _ => false

/-- `d[k]` on the member list of a parsed object: the last binding wins, as in
a `dict` built from pairs with duplicate keys. -/
def jGet (members : List (List Char × JVal)) (k : List Char) : Option JVal :=
  (members.reverse.find? (fun kv => kv.1 == k)).map (·.2)

/-- Trim trailing `'0'` characters (used when rendering float fractions). -/
def trimZeros (ds : List Char) : List Char :=
  (ds.reverse.dropWhile (fun c => c = '0')).reverse

/-- Decimal rendering of a float value `mant * 10 ^ exp` in Python's plain
(non-scientific) style: used only for `str()` of numbers that reach
`_clean_num`; scientific-notation thresholds are not modelled. -/
def floatRepr (d : Dec) : List Char :=
  if 0 ≤ d.exp then
    (d.mant * (10 : Int) ^ d.exp.toNat).repr.data ++ pys ".0"
  else
    let k := (-d.exp).toNat
    let sign : List Char := if d.mant < 0 then ['-'] else []
    let digits := d.mant.natAbs.repr.data
    let digits' := List.replicate (k + 1 - min (k + 1) digits.length) '0' ++ digits
    let ip := digits'.take (digits'.length - k)
    let fp := trimZeros (digits'.drop (digits'.length - k))
    sign ++ ip ++ '.' :: (if fp.isEmpty then ['0'] else fp)

mutual
/-- Python `repr()` of a `json.loads` result (string quoting simplified to
plain single quotes). -/
def pyRepr : JVal → List Char
  | .jnull => pys "None"
  | .jbool true => pys "True"
  | .jbool false => pys "False"
  | .jnum true v => v.mant.repr.data
  | .jnum false v => floatRepr v
  | .jnan => pys "nan"
  | .jinf true => pys "inf"
  | .jinf false => pys "-inf"
  | .jstr s => '\'' :: s ++ ['\'']
  | .jarr l => '[' :: pyReprElems l ++ [']']
  | .jobj ms => '\x7b' :: pyReprMembers ms ++ ['\x7d']
/-- Comma-separated `repr`s of list elements. -/
def pyReprElems : List JVal → List Char
  | [] => []
  | [v] => pyRepr v
  | v :: rest => pyRepr v ++ ',' :: ' ' :: pyReprElems rest
/-- Comma-separated `key: value` pairs of a dict `repr`. -/
def pyReprMembers : List (List Char × JVal) → List Char
  | [] => []
  | [(k, v)] => '\'' :: k ++ '\'' :: ':' :: ' ' :: pyRepr v
  | (k, v) :: rest => '\'' :: k ++ '\'' :: ':' :: ' ' :: pyRepr v ++ ',' :: ' ' :: pyReprMembers rest
end

/-- Python `str()` of a `json.loads` result (equals `repr` except on strings). -/
def pyStr : JVal → List Char
  | .jstr s => s
  | v => pyRepr v

/-! ### ai_parser._clean_num

```python
def _clean_num(val):
    if val is None or str(val).strip() in ("", "-", "nil", "Nil", "N/A", "nan"):
        return 0.0
    s = re.sub(r"[#,\s]", "", str(val).replace("NGN","").replace("₦",""))
    negative = s.startswith("(") and s.endswith(")")
    s = s.strip("()")
    try:
        return -float(s) if negative else float(s)
    except:
        return 0.0
```
-/

/-- The scan of `str.replace(old, "")`, structural on a fuel argument: each
step consumes at least one character, so `s.length` fuel always suffices (the
`0` case is never reached from `replaceDrop`). -/
def replaceDropGo (old : List Char) : Nat → List Char → List Char
  | 0, s => s
  | _ + 1, [] => []
  | fuel + 1, c :: t =>
    if old.isPrefixOf (c :: t) && !old.isEmpty then
      replaceDropGo old fuel ((c :: t).drop old.length)
    else c :: replaceDropGo old fuel t

/-- `str.replace(old, "")` for a non-empty pattern `old` (empty patterns do not
occur in the source). -/
def replaceDrop (old : List Char) (s : List Char) : List Char :=
  replaceDropGo old s.length s

/-- `re.sub(r"[#,\s]", "", s)`. -/
def cleanSeps (s : List Char) : List Char :=
  s.filter (fun c => !(c = '#' || c = ',' || pyWs c))

/-- `str.strip("()")`. -/
def stripParens (s : List Char) : List Char :=
  ((s.dropWhile (fun c => c = '(' || c = ')')).reverse.dropWhile
    (fun c => c = '(' || c = ')')).reverse

/-- The sentinel tuple `("", "-", "nil", "Nil", "N/A", "nan")`. -/
def sentinels : List (List Char) :=
  [[], pys "-", pys "nil", pys "Nil", pys "N/A", pys "nan"]

/-- `re.sub(r"[#,\s]", "", str(val).replace("NGN","").replace("₦",""))`. -/
def cleanNumStr (s : List Char) : List Char :=
  cleanSeps (replaceDrop (pys "₦") (replaceDrop (pys "NGN") s))

/-- `ai_parser._clean_num`. -/
def _clean_num (val : JVal) : PyFloat :=
  if val.isNull || sentinels.contains (pyStrip (pyStr val)) then PyFloat.zero
  else
    let s := cleanNumStr (pyStr val)
    let negative := s.head? = some '(' && s.getLast? = some ')'
    let s2 := stripParens s
    match pyFloatOfStr s2 with
    | some f => if negative then f.neg else f
    | none => PyFloat.zero

/-! ### Normalized transactions and deduplication (ai_parser.AIParser.parse)

```python
seen, unique = set(), []
for r in all_rows:
    key = (r["date"], r["description"][:40], r["debit"], r["credit"])
    if key not in seen:
        seen.add(key)
        unique.append(r)
```
-/

/-- The record shape built by `_parse_chunk`: all six fields always present. -/
structure Txn where
  date : List Char
  value_date : List Char
  description : List Char
  debit : PyFloat
  credit : PyFloat
  balance : PyFloat
deriving DecidableEq

/-- The deduplication key `(r["date"], r["description"][:40], r["debit"], r["credit"])`. -/
def txnKey (r : Txn) : List Char × List Char × PyFloat × PyFloat :=
  (r.date, r.description.take 40, r.debit, r.credit)

/-- Python `==` on key tuples (strings structurally, floats via `peq`). -/
def keyEq (a b : List Char × List Char × PyFloat × PyFloat) : Bool :=
  a.1 == b.1 && a.2.1 == b.2.1 && PyFloat.peq a.2.2.1 b.2.2.1 && PyFloat.peq a.2.2.2 b.2.2.2

/-- The dedup loop; `seen` is the set of already-seen keys (queried only for
membership, so a list model is faithful). -/
def dedupLoop : List (List Char × List Char × PyFloat × PyFloat) → List Txn → List Txn
  | _, [] => []
  | seen, r :: rs =>
    if seen.any (fun k => keyEq k (txnKey r)) then dedupLoop seen rs
    else r :: dedupLoop (txnKey r :: seen) rs

/-- The deduplication pass of `AIParser.parse`. -/
def dedup (rows : List Txn) : List Txn := dedupLoop [] rows

/-! ### extractor.DocumentExtractor._extract_pdf (per-page fallback chain)

External collaborators are modelled at their interface boundary: an invocation
either returns text (`.ok`) or raises (`.error msg`). -/

/-- `_try_camelot`: result of the guarded Camelot call — the joined table text
on success, `""` when the call raises (`except Exception: pass; return ""`). -/
def _try_camelot (r : Except (List Char) (List Char)) : List Char :=
  match r with
  | .ok s => s
  | .error _ => []

/-- `_ocr_page`: the OCR text on success; when the call raises, the inline
marker `"[OCR ERROR: {e}]"` (not the empty string). -/
def _ocr_page (r : Except (List Char) (List Char)) : List Char :=
  match r with
  | .ok s => s
  | .error e => pys "[OCR ERROR: " ++ e ++ [']']

/-- The per-page strategy chain of `_extract_pdf`: positional text, then
Camelot if below 50 stripped characters, then OCR if still below. -/
def extractPage (positional : List Char)
    (camelot ocr : Except (List Char) (List Char)) : List Char :=
  let text1 := positional
  let text2 := if (pyStrip text1).length < 50 then _try_camelot camelot else text1
  if (pyStrip text2).length < 50 then _ocr_page ocr else text2

/-! ### extract.py whole-document gate

`_extract_pdf` wraps every page's yield as `"\n--- PAGE {n} ---\n{text}"` and
joins the pages with `"\n"`; `extract.main` reports "Could not extract text
from document" iff `not raw_text or len(raw_text.strip()) < 50`. -/

/-- `f"\n--- PAGE {page_num} ---\n{text}"`. -/
def pageBlock (n : Nat) (text : List Char) : List Char :=
  '\n' :: (pys "--- PAGE " ++ (Nat.repr n).data ++ pys " ---" ++ '\n' :: text)

/-- `enumerate(doc, 1)`: wrap each page's yield with its 1-based page marker. -/
def pageBlocksFrom (i : Nat) : List (List Char) → List (List Char)
  | [] => []
  | t :: ts => pageBlock i t :: pageBlocksFrom (i + 1) ts

/-- `"\n".join(all_pages)`: the whole-document text of `_extract_pdf`. -/
def buildDocText (pages : List (List Char)) : List Char :=
  List.intercalate ['\n'] (pageBlocksFrom 1 pages)

/-- The "no content" test of `extract.main`:
`not raw_text or len(raw_text.strip()) < 50`. -/
def noContentGate (raw : List Char) : Bool :=
  raw.isEmpty || decide ((pyStrip raw).length < 50)

/-! ### extractor._rows_from_words

```python
sorted_words = sorted(word_list, key=lambda w: (round(w[1] / y_tol), w[0]))
rows, current_row = [], []
current_y = sorted_words[0][1]
for w in sorted_words:
    x0, y0, x1, y1, text = w[0], w[1], w[2], w[3], w[4]
    if abs(y0 - current_y) <= y_tol:
        current_row.append((text, x0, x1, y0))
    else:
        if current_row:
            rows.append(sorted(current_row, key=lambda r: r[1]))
        current_row = [(text, x0, x1, y0)]
        current_y = y0
if current_row:
    rows.append(sorted(current_row, key=lambda r: r[1]))
```

Coordinates are modelled as exact rationals.  Python's `sorted` is a stable
sort for a total preorder comparator, so any stable sort is extensionally
identical; `List.insertionSort` (stable) models it. -/

/-- A word tuple `(x0, y0, x1, y1, text)` from `page.get_text("words")`. -/
structure Word where
  x0 : ℚ
  y0 : ℚ
  x1 : ℚ
  y1 : ℚ
  text : List Char
deriving DecidableEq

/-- A row entry `(text, x0, x1, y0)`. -/
structure Tok where
  text : List Char
  x0 : ℚ
  x1 : ℚ
  y0 : ℚ
deriving DecidableEq

/-- `(text, x0, x1, y0)` from a word tuple. -/
def toTok (w : Word) : Tok := ⟨w.text, w.x0, w.x1, w.y0⟩

/-- Python's `round()`: nearest integer, ties to even. -/
def pyRound (q : ℚ) : ℤ :=
  let f := ⌊q⌋
  if q - f < 1 / 2 then f
  else if 1 / 2 < q - f then f + 1
  else if Even f then f else f + 1

/-- The sort key `(round(w[1] / y_tol), w[0])`. -/
def sortKey (tol : ℤ) (w : Word) : ℤ × ℚ := (pyRound (w.y0 / (tol : ℚ)), w.x0)

/-- Lexicographic comparison of sort keys (Python tuple `<=`). -/
def wordLe (tol : ℤ) (a b : Word) : Prop :=
  (sortKey tol a).1 < (sortKey tol b).1 ∨
    ((sortKey tol a).1 = (sortKey tol b).1 ∧ (sortKey tol a).2 ≤ (sortKey tol b).2)

instance (tol : ℤ) : DecidableRel (wordLe tol) := fun a b =>
  inferInstanceAs (Decidable (_ ∨ _))

/-- `sorted(current_row, key=lambda r: r[1])`: stable sort of a row by `x0`. -/
def sortByX (row : List Tok) : List Tok :=
  List.insertionSort (fun a b => a.x0 ≤ b.x0) row

/-- The grouping loop: `cy` is `current_y` (the anchor of the open row), `cur`
is `current_row`.  Each finished row is sorted left-to-right and appended. -/
def rowLoop (tol : ℚ) : ℚ → List Tok → List Word → List (List Tok)
  | _, cur, [] => if !cur.isEmpty then [sortByX cur] else []
  | cy, cur, w :: ws =>
    if |w.y0 - cy| ≤ tol then rowLoop tol cy (cur ++ [toTok w]) ws
    else (if !cur.isEmpty then [sortByX cur] else []) ++ rowLoop tol w.y0 [toTok w] ws

/-- `extractor._rows_from_words` (default `y_tol = 5`). -/
def _rows_from_words (word_list : List Word) (y_tol : ℤ) : List (List Tok) :=
  match List.insertionSort (wordLe y_tol) word_list with
  | [] => []
  | w0 :: rest => rowLoop (y_tol : ℚ) w0.y0 [] (w0 :: rest)

/-! ### json.loads

A faithful model of Python's `json.loads` in strict mode: JSON whitespace is
` \t\n\r`; strings reject raw control characters and understand the standard
escapes; numbers follow the JSON grammar (`0|[1-9][0-9]*`, optional fraction
and exponent) and keep the int/float distinction; the constants `NaN`,
`Infinity`, `-Infinity` are accepted (Python's defaults); any trailing
non-whitespace makes the whole parse fail.  The parser is structural on a fuel
argument; `loads` supplies `length + 1`, which the totality arguments below
show is sufficient for every input that parses at all. -/

/-- JSON whitespace (`' \t\n\r'`). -/
def jWs (c : Char) : Bool := c = ' ' || c = '\t' || c = '\n' || c = '\r'

/-- Skip JSON whitespace. -/
def skipWsJ : List Char → List Char
  | c :: cs => if jWs c then skipWsJ cs else c :: cs
  | [] => []

/-- Hex digit value. -/
def hexVal (c : Char) : Option Nat :=
  let n := c.toNat
  if 48 ≤ n ∧ n ≤ 57 then some (n - 48)
  else if 97 ≤ n ∧ n ≤ 102 then some (n - 87)
  else if 65 ≤ n ∧ n ≤ 70 then some (n - 55)
  else none

/-- Single-character JSON escapes. -/
def unescape (e : Char) : Option Char :=
  if e = '"' ∨ e = '\\' ∨ e = '/' then some e
  else if e = 'n' then some '\n'
  else if e = 't' then some '\t'
  else if e = 'r' then some '\r'
  else if e = 'b' then some (Char.ofNat 8)
  else if e = 'f' then some (Char.ofNat 12)
  else none

/-- String body after the opening quote.  Strict mode: raw control characters
(code points below 0x20) are rejected.  (`\uXXXX` surrogate pairing is not
modelled; no claim exercises it.) -/
def parseJStrAux (acc : List Char) : List Char → Option (List Char × List Char)
  | [] => none
  | c :: rest =>
    if c = '"' then some (acc.reverse, rest)
    else if c = '\\' then
      match rest with
      | 'u' :: a :: b :: c2 :: d :: rest2 =>
        (match hexVal a, hexVal b, hexVal c2, hexVal d with
         | some va, some vb, some vc, some vd =>
           parseJStrAux (Char.ofNat (((va * 16 + vb) * 16 + vc) * 16 + vd) :: acc) rest2
         | _, _, _, _ => none)
      | e :: rest2 =>
        (match unescape e with
         | some ch => parseJStrAux (ch :: acc) rest2
         | none => none)
      | [] => none
    else if c.toNat < 0x20 then none
    else parseJStrAux (c :: acc) rest

/-- Parse a JSON string after its opening quote. -/
def parseJStr (cs : List Char) : Option (List Char × List Char) := parseJStrAux [] cs

/-- Parse a JSON number (`NUMBER_RE`), returning its value and whether the
lexeme was an integer (no fraction, no exponent). -/
def parseJNum (cs : List Char) : Option (JVal × List Char) :=
  let (neg, cs1) : Bool × List Char :=
    match cs with
    | '-' :: r => (true, r)
    | _ => (false, cs)
  let sgn : Int := if neg then -1 else 1
  match cs1 with
  | '0' :: r1 => some (jNumRest sgn ['0'] r1)
  | c :: r1 =>
    if isDigitCh c && c ≠ '0' then
      let (ds, r2) := takeDigits r1
      some (jNumRest sgn (c :: ds) r2)
    else none
  | [] => none
where
  /-- Optional fraction and exponent after the integer digits. -/
  jNumRest (sgn : Int) (intDs : List Char) (r : List Char) : JVal × List Char :=
    let (fds, r1) : List Char × List Char :=
      match r with
      | '.' :: t =>
        match takeDigits t with
        | ([], _) => ([], r)
        | (ds, u) => (ds, u)
      | _ => ([], r)
    let (eVal, hasExp, r2) : Int × Bool × List Char :=
      match r1 with
      | 'e' :: t | 'E' :: t =>
        let (esgn, t1) : Int × List Char :=
          match t with
          | '+' :: u => (1, u)
          | '-' :: u => (-1, u)
          | _ => (1, t)
        (match takeDigits t1 with
         | ([], _) => (0, false, r1)
         | (eds, t2) => (esgn * digitsToNat eds, true, t2))
      | _ => (0, false, r1)
    let isInt := fds.isEmpty && !hasExp
    (JVal.jnum isInt ⟨sgn * digitsToNat (intDs ++ fds), eVal - (fds.length : Int)⟩, r2)

mutual
/-- One JSON value.  Whitespace before a value is accepted here; every context
in which Python's scanner is entered also allows it, so the placement is
equivalent. -/
def parseVal : Nat → List Char → Option (JVal × List Char)
  | 0, _ => none
  | fuel + 1, cs =>
    match skipWsJ cs with
    | '"' :: r =>
      (match parseJStr r with
       | some (s, r1) => some (.jstr s, r1)
       | none => none)
    | '[' :: r =>
      (match skipWsJ r with
       | ']' :: r1 => some (.jarr [], r1)
       | cs1 =>
         match parseItems fuel cs1 with
         | some (vs, r1) => some (.jarr vs, r1)
         | none => none)
    | '\x7b' :: r =>
      (match skipWsJ r with
       | '\x7d' :: r1 => some (.jobj [], r1)
       | cs1 =>
         match parseMembers fuel cs1 with
         | some (ms, r1) => some (.jobj ms, r1)
         | none => none)
    | 't' :: 'r' :: 'u' :: 'e' :: r => some (.jbool true, r)
    | 'f' :: 'a' :: 'l' :: 's' :: 'e' :: r => some (.jbool false, r)
    | 'n' :: 'u' :: 'l' :: 'l' :: r => some (.jnull, r)
    | 'N' :: 'a' :: 'N' :: r => some (.jnan, r)
    | 'I' :: 'n' :: 'f' :: 'i' :: 'n' :: 'i' :: 't' :: 'y' :: r => some (.jinf true, r)
    | '-' :: 'I' :: 'n' :: 'f' :: 'i' :: 'n' :: 'i' :: 't' :: 'y' :: r => some (.jinf false, r)
    | cs1 => parseJNum cs1
/-- One-or-more comma-separated array elements, consuming the closing `]`. -/
def parseItems : Nat → List Char → Option (List JVal × List Char)
  | 0, _ => none
  | fuel + 1, cs =>
    match parseVal fuel cs with
    | none => none
    | some (v, r) =>
      match skipWsJ r with
      | ',' :: r1 =>
        (match parseItems fuel (skipWsJ r1) with
         | some (vs, r2) => some (v :: vs, r2)
         | none => none)
      | ']' :: r1 => some ([v], r1)
      | _ => none
/-- One-or-more `"key": value` members, consuming the closing brace. -/
def parseMembers : Nat → List Char → Option (List (List Char × JVal) × List Char)
  | 0, _ => none
  | fuel + 1, cs =>
    match cs with
    | '"' :: r =>
      (match parseJStr r with
       | none => none
       | some (k, r1) =>
         match skipWsJ r1 with
         | ':' :: r2 =>
           (match parseVal fuel (skipWsJ r2) with
            | none => none
            | some (v, r3) =>
              match skipWsJ r3 with
              | ',' :: r4 =>
                (match parseMembers fuel (skipWsJ r4) with
                 | some (ms, r5) => some ((k, v) :: ms, r5)
                 | none => none)
              | '\x7d' :: r4 => some ([(k, v)], r4)
              | _ => none)
         | _ => none)
    | _ => none
end

/-- `json.loads`: parse one value, then require only whitespace to remain. -/
def pyLoads (s : List Char) : Option JVal :=
  match parseVal (s.length + 1) s with
  | some (v, rest) => if (skipWsJ rest).isEmpty then some v else none
  | none => none

/-! ### ai_parser._extract_json (the five-strategy salvage cascade) -/

/-- The backtick character. -/
def bq : Char := Char.ofNat 96

/-- `re.sub(r"```(?:json)?", "", raw, flags=re.IGNORECASE)`: remove every
code-fence marker, a greedy optional `json` tag included. -/
def stripFencesGo : Nat → List Char → List Char
  | 0, s => s
  | fuel + 1, c1 :: c2 :: c3 :: j1 :: j2 :: j3 :: j4 :: rest =>
    if c1 = bq ∧ c2 = bq ∧ c3 = bq then
      if j1.toLower = 'j' ∧ j2.toLower = 's' ∧ j3.toLower = 'o' ∧ j4.toLower = 'n' then
        stripFencesGo fuel rest
      else stripFencesGo fuel (j1 :: j2 :: j3 :: j4 :: rest)
    else c1 :: stripFencesGo fuel (c2 :: c3 :: j1 :: j2 :: j3 :: j4 :: rest)
  | fuel + 1, c1 :: c2 :: c3 :: rest =>
    if c1 = bq ∧ c2 = bq ∧ c3 = bq then stripFencesGo fuel rest
    else c1 :: stripFencesGo fuel (c2 :: c3 :: rest)
  | _ + 1, s => s

/-- `re.sub` above, with the fuel set to the input length (each scan step
consumes at least one character, so this always suffices). -/
def stripFences (s : List Char) : List Char := stripFencesGo s.length s

/-- Strategies 1 and 2: a direct parse returning a list, or a parsed mapping's
`"transactions"` member (returned as-is, list or not). -/
def stratDirect (s : List Char) : Option JVal :=
  match pyLoads s with
  | some (.jarr l) => some (.jarr l)
  | some (.jobj d) => jGet d (pys "transactions")
  | _ => none

/-- Strategy 3: `re.search(r"(\[.*\])", cleaned, re.DOTALL)` — with a greedy
`.*` under DOTALL the match runs from the first `[` that precedes the last `]`
to that last `]`; parse it, accepting only a list. -/
def strat3 (cleaned : List Char) : Option JVal :=
  match cleaned.findIdx? (fun c => c = '['), lastIdxOf ']' cleaned with
  | some i, some j =>
    if i < j then
      match pyLoads (pySlice cleaned i (j + 1)) with
      | some (.jarr l) => some (.jarr l)
      | _ => none
    else none
  | _, _ => none

/-- `text[:last+1]` for `last = text.rfind("},")`, as the prefix of `text`
ending at the last `}` that is immediately followed by `,`. -/
def cutBraceComma : List Char → Option (List Char)
  | [] => none
  | c :: rest =>
    match cutBraceComma rest with
    | some p => some (c :: p)
    | none => if c = '\x7d' ∧ rest.head? = some ',' then some ['\x7d'] else none

/-- `text[:last]` for `last = text.rfind("{")` when a `{` exists. -/
def cutLastLB : List Char → Option (List Char)
  | [] => none
  | c :: rest =>
    match cutLastLB rest with
    | some p => some (c :: p)
    | none => if c = '\x7b' then some [] else none

/-- Strategy 4 (truncation repair): if the text starts with `[` but does not
end with `]`, truncate to the last `"},"` boundary (or to the last `{`, or —
`rfind` returning `-1` — to `text[:-1]`), append `"\n]"`, and parse, accepting
only a list. -/
def strat4 (cleaned : List Char) : Option JVal :=
  let text := pyStrip cleaned
  if text.head? = some '[' ∧ text.getLast? ≠ some ']' then
    let text2 :=
      match cutBraceComma text with
      | some p => p ++ '\n' :: [']']
      | none =>
        match cutLastLB text with
        | some p => p ++ '\n' :: [']']
        | none => text.dropLast ++ '\n' :: [']']
    match pyLoads text2 with
    | some (.jarr l) => some (.jarr l)
    | _ => none
  else none

/-- `re.findall(r"\{[^{}]+\}", cleaned)`: left-to-right non-overlapping scan;
`cur` holds the characters seen since the most recent `{` with no intervening
brace. -/
def findObjsAux (cur : Option (List Char)) : List Char → List (List Char)
  | [] => []
  | c :: rest =>
    if c = '\x7b' then findObjsAux (some []) rest
    else if c = '\x7d' then
      match cur with
      | some l =>
        if l.isEmpty then findObjsAux none rest
        else ('\x7b' :: l ++ ['\x7d']) :: findObjsAux none rest
      | none => findObjsAux none rest
    else
      match cur with
      | some l => findObjsAux (some (l ++ [c])) rest
      | none => findObjsAux none rest

/-- Strategy 5: every `{...}` pattern match that parses, in order. -/
def strat5 (cleaned : List Char) : List JVal :=
  (findObjsAux none cleaned).filterMap pyLoads

/-- `ai_parser._extract_json`.  The return value is whatever the first
successful strategy returns — a list for strategies 3–5, but strategies 1 and
2 pass a parsed mapping's `"transactions"` member through unchecked.  When
every strategy fails the result is the empty list. -/
def _extract_json (raw : List Char) : JVal :=
  match stratDirect raw with
  | some v => v
  | none =>
    let cleaned := pyStrip (stripFences raw)
    match stratDirect cleaned with
    | some v => v
    | none =>
      match strat3 cleaned with
      | some v => v
      | none =>
        match strat4 cleaned with
        | some v => v
        | none =>
          -- `if results: return results` / `return []`: same value either way.
          .jarr (strat5 cleaned)

/-! ### ai_parser.AIParser._parse_chunk (record coercion) -/

/-- `r.get(key, default)`. -/
def jGetD (d : List (List Char × JVal)) (k : List Char) (dflt : JVal) : JVal :=
  (jGet d k).getD dflt

/-- The per-candidate coercion of `_parse_chunk`: mappings become six-field
records; any other candidate is skipped (`if not isinstance(r, dict): continue`). -/
def cleanCandidate (r : JVal) : Option Txn :=
  match r with
  | .jobj d =>
    some
      { date := pyStrip (pyStr (jGetD d (pys "date") (.jstr [])))
        value_date := pyStrip (pyStr (jGetD d (pys "value_date") (.jstr [])))
        description := pyStrip (pyStr (jGetD d (pys "description") (.jstr [])))
        debit := _clean_num (jGetD d (pys "debit") (.jnum true ⟨0, 0⟩))
        credit := _clean_num (jGetD d (pys "credit") (.jnum true ⟨0, 0⟩))
        balance := _clean_num (jGetD d (pys "balance") (.jnum true ⟨0, 0⟩)) }
  | _ => none

/-- `for r in rows` over a salvage-cascade result: a list yields its elements.
Iterating a mapping yields its keys and a string its characters — never
mappings, so no record is emitted; iterating any other value raises
`TypeError`, which `_parse_chunk` catches, returning `[]`.  In each non-list
case the loop therefore contributes no records, which `[]` models. -/
def rowsElems : JVal → List JVal
  | .jarr l => l
  | _ => []

/-- The record list `_parse_chunk` builds from a collaborator response `raw`. -/
def parseChunkRows (raw : List Char) : List Txn :=
  (rowsElems (_extract_json raw)).filterMap cleanCandidate

/-! ### A family of truncated-array responses (for the strategy-4 analysis)

Flat objects with plain string keys and values, rendered exactly as a
collaborator would emit them (`{"k":"v",...}`), comma-joined inside `[`, then
cut off inside a further (incomplete) trailing part `junk`. -/

/-- Characters that need no escaping inside a JSON string and cannot interfere
with the `"},"` / `"{"` searches: printable, not `"`／`\`／`{`／`}`. -/
def plainChar (c : Char) : Bool :=
  decide (0x20 ≤ c.toNat) && c ≠ '"' && c ≠ '\\' && c ≠ '\x7b' && c ≠ '\x7d'

/-- `"k":"v"`. -/
def renderPair (kv : List Char × List Char) : List Char :=
  '"' :: kv.1 ++ '"' :: ':' :: '"' :: kv.2 ++ ['"']

/-- `{"k1":"v1",...,"kn":"vn"}`. -/
def renderObj (fields : List (List Char × List Char)) : List Char :=
  '\x7b' :: List.intercalate [','] (fields.map renderPair) ++ ['\x7d']

/-- The parse of a rendered flat object. -/
def objToJVal (fields : List (List Char × List Char)) : JVal :=
  .jobj (fields.map (fun kv => (kv.1, JVal.jstr kv.2)))

/-- A truncated array response: the complete objects, a separating comma, then
an arbitrary incomplete remainder. -/
def truncArray (objs : List (List (List Char × List Char))) (junk : List Char) : List Char :=
  '[' :: List.intercalate [','] (objs.map renderObj) ++ ',' :: junk

/-- Every key and value of every field of every object is plain. -/
def wfObjs (objs : List (List (List Char × List Char))) : Bool :=
  objs.all (fun o => o.all (fun kv => kv.1.all plainChar && kv.2.all plainChar))

/-- A fuel budget sufficient to parse the repaired text (see `rt_parseItems`). -/
def itemsFuel (objs : List (List (List Char × List Char))) : Nat :=
  objs.foldr (fun o acc => o.length + 3 + acc) 1

/-- The whole-document text of an all-empty extraction run over `n` pages. -/
def docAllEmpty (n : Nat) : List Char :=
  buildDocText (List.replicate n [])

/-! ### Proof views of the parser continuations

Each of these is definitionally equal to the corresponding continuation of
`parseVal` / `parseItems` / `parseMembers` after the head token has been
consumed; the round-trip lemmas step through the parser by `rfl`-bridging to
these views. -/

/-- `parseVal` after an opening quote. -/
def pvStrBody (X : List Char) : Option (JVal × List Char) :=
  match parseJStr X with
  | some (s, r1) => some (.jstr s, r1)
  | none => none

/-- `parseVal` after `[`. -/
def pvArrBody (g : Nat) (r : List Char) : Option (JVal × List Char) :=
  match skipWsJ r with
  | ']' :: r1 => some (.jarr [], r1)
  | cs1 =>
    match parseItems g cs1 with
    | some (vs, r1) => some (.jarr vs, r1)
    | none => none

/-- `parseVal` after `{`. -/
def pvObjBody (g : Nat) (r : List Char) : Option (JVal × List Char) :=
  match skipWsJ r with
  | '\x7d' :: r1 => some (.jobj [], r1)
  | cs1 =>
    match parseMembers g cs1 with
    | some (ms, r1) => some (.jobj ms, r1)
    | none => none

/-- `parseItems` after one element has been parsed. -/
def piAfterVal (g : Nat) (v : JVal) (r : List Char) : Option (List JVal × List Char) :=
  match skipWsJ r with
  | ',' :: r1 =>
    (match parseItems g (skipWsJ r1) with
     | some (vs, r2) => some (v :: vs, r2)
     | none => none)
  | ']' :: r1 => some ([v], r1)
  | _ => none

/-- `parseMembers` after a complete `"key": value` member. -/
def pmAfterVal (g : Nat) (k : List Char) (v : JVal) (r3 : List Char) :
    Option (List (List Char × JVal) × List Char) :=
  match skipWsJ r3 with
  | ',' :: r4 =>
    (match parseMembers g (skipWsJ r4) with
     | some (ms, r5) => some ((k, v) :: ms, r5)
     | none => none)
  | '\x7d' :: r4 => some ([(k, v)], r4)
  | _ => none

/-- `parseMembers` after the key and its colon (body inlined so the view is
shaped exactly like the parser's continuation). -/
def pmAfterColon (g : Nat) (k : List Char) (r2 : List Char) :
    Option (List (List Char × JVal) × List Char) :=
  match parseVal g (skipWsJ r2) with
  | none => none
  | some (v, r3) =>
    match skipWsJ r3 with
    | ',' :: r4 =>
      (match parseMembers g (skipWsJ r4) with
       | some (ms, r5) => some ((k, v) :: ms, r5)
       | none => none)
    | '\x7d' :: r4 => some ([(k, v)], r4)
    | _ => none

/-- `parseMembers` after the opening quote of a key (fully inlined view). -/
def pmKeyBody (g : Nat) (X : List Char) : Option (List (List Char × JVal) × List Char) :=
  match parseJStr X with
  | none => none
  | some (k, r1) =>
    match skipWsJ r1 with
    | ':' :: r2 =>
      (match parseVal g (skipWsJ r2) with
       | none => none
       | some (v, r3) =>
         match skipWsJ r3 with
         | ',' :: r4 =>
           (match parseMembers g (skipWsJ r4) with
            | some (ms, r5) => some ((k, v) :: ms, r5)
            | none => none)
         | '\x7d' :: r4 => some ([(k, v)], r4)
         | _ => none)
    | _ => none

/-! ## Chunker lemmas -/

theorem lastIdxOf_lt {c : Char} {l : List Char} {i : Nat}
    (h : lastIdxOf c l = some i) : i < l.length := by
  induction l generalizing i with
  | nil => simp [lastIdxOf] at h
  | cons a t ih =>
    rw [lastIdxOf] at h
    cases ht : lastIdxOf c t with
    | some j =>
      rw [ht] at h
      injection h with h
      have := ih ht
      simp only [List.length_cons]
      omega
    | none =>
      rw [ht] at h
      by_cases hac : a = c
      · rw [if_pos hac] at h
        injection h with h
        simp only [List.length_cons]
        omega
      · rw [if_neg hac] at h
        exact absurd h (by simp)

theorem pyRfindChar_bounds {text : List Char} {c : Char} {start stop i : Nat}
    (h : pyRfindChar text c start stop = some i) :
    start ≤ i ∧ i < stop ∧ i < text.length := by
  simp only [pyRfindChar, Option.map_eq_some'] at h
  obtain ⟨j, hj, rfl⟩ := h
  have hlt := lastIdxOf_lt hj
  simp only [List.length_drop, List.length_take] at hlt
  omega

theorem chunkEnd_le (text : List Char) (size start : Nat) :
    chunkEnd text size start ≤ start + size := by
  simp only [chunkEnd]
  split
  · split
    · rename_i nl h
      have := pyRfindChar_bounds h
      split <;> omega
    · omega
  · omega

theorem chunkEnd_gt {text : List Char} {size start : Nat} (hsize : 1 ≤ size) :
    start < chunkEnd text size start := by
  simp only [chunkEnd]
  split
  · split
    · rename_i nl h
      split <;> omega
    · omega
  · omega

theorem slice_append_drop {text : List Char} {start e : Nat} (h : start ≤ e) :
    pySlice text start e ++ text.drop e = text.drop start := by
  unfold pySlice
  rw [List.drop_take]
  have h2 : text.drop e = (text.drop start).drop (e - start) := by
    rw [List.drop_drop]
    congr 1
    omega
  rw [h2, List.take_append_drop]

theorem chunkLoop_flatten {text : List Char} {size : Nat} (hsize : 1 ≤ size) :
    ∀ fuel start, text.length ≤ start + fuel →
      (chunkLoop text size fuel start).flatten = text.drop start := by
  intro fuel
  induction fuel with
  | zero =>
    intro start hle
    simp only [chunkLoop, List.flatten_nil]
    rw [List.drop_eq_nil_of_le]
    omega
  | succ n ih =>
    intro start hle
    simp only [chunkLoop]
    split
    · rename_i hlt
      rw [List.flatten_cons]
      have hgt := @chunkEnd_gt text size start hsize
      rw [ih (chunkEnd text size start) (by omega)]
      exact slice_append_drop (by omega)
    · rename_i hge
      simp only [List.flatten_nil]
      rw [List.drop_eq_nil_of_le]
      omega

theorem chunkLoop_mem_length {text : List Char} {size : Nat} :
    ∀ fuel start c, c ∈ chunkLoop text size fuel start → c.length ≤ size := by
  intro fuel
  induction fuel with
  | zero => intro start c h; simp [chunkLoop] at h
  | succ n ih =>
    intro start c h
    simp only [chunkLoop] at h
    split at h
    · rcases List.mem_cons.mp h with rfl | hmem
      · have hle := chunkEnd_le text size start
        simp only [pySlice, List.length_drop, List.length_take]
        omega
      · exact ih _ c hmem
    · simp at h

theorem pyStrip_length_le (s : List Char) : (pyStrip s).length ≤ s.length := by
  unfold pyStrip pyRstrip pyLstrip
  have h1 := (List.dropWhile_sublist (l := s) (p := fun c => pyWs c)).length_le
  have h2 := (List.dropWhile_sublist (l := (s.dropWhile (fun c => pyWs c)).reverse)
    (p := fun c => pyWs c)).length_le
  simp only [List.length_reverse] at *
  omega

/-- C6: for every text and every chunk size ≥ 1, `chunk_text` returns an
ordered finite sequence of non-empty chunks; the unstripped slices it cuts
concatenate exactly to the input (so the chunks reconstruct the input modulo
whitespace trimmed at chunk edges, each returned chunk being the strip of one
slice with all-whitespace slices dropped); the empty string yields zero
chunks; and no chunk exceeds the chunk size (a fortiori, none exceeds it
unless a line is longer). -/
theorem c6_chunker (text : List Char) (size : Nat) (hsize : 1 ≤ size) :
    chunk_text [] size = []
    ∧ (chunkSlices text size).flatten = text
    ∧ chunk_text text size = ((chunkSlices text size).map pyStrip).filter (fun c => !c.isEmpty)
    ∧ ∀ c ∈ chunk_text text size, c ≠ [] ∧ c.length ≤ size := by
  refine ⟨rfl, ?_, rfl, ?_⟩
  · have := @chunkLoop_flatten text size hsize text.length 0 (by omega)
    simpa [chunkSlices] using this
  · intro c hc
    unfold chunk_text at hc
    have hmem := List.mem_filter.mp hc
    obtain ⟨slice, hslice, rfl⟩ := List.mem_map.mp hmem.1
    refine ⟨?_, ?_⟩
    · have := hmem.2
      simpa [List.isEmpty_iff] using this
    · calc (pyStrip slice).length ≤ slice.length := pyStrip_length_le slice
        _ ≤ size := chunkLoop_mem_length text.length 0 slice hslice

theorem c6_chunker_witness :
    1 ≤ 3
    ∧ (chunk_text [] 3 = []
      ∧ (chunkSlices (pys "ab\ncd") 3).flatten = pys "ab\ncd"
      ∧ chunk_text (pys "ab\ncd") 3
          = ((chunkSlices (pys "ab\ncd") 3).map pyStrip).filter (fun c => !c.isEmpty)
      ∧ ∀ c ∈ chunk_text (pys "ab\ncd") 3, c ≠ [] ∧ c.length ≤ 3) :=
  ⟨by decide, c6_chunker (pys "ab\ncd") 3 (by decide)⟩

/-- C10: every chunk returned by `chunk_text` has length at most the chunk
size, unconditionally — the slice end never moves past `start + size`, so a
line longer than the size is hard-cut inside the line rather than emitted
overlong. -/
theorem c10_hard_cap (text : List Char) (size : Nat) (hsize : 1 ≤ size) :
    ∀ c ∈ chunk_text text size, c.length ≤ size := by
  intro c hc
  unfold chunk_text at hc
  have hmem := List.mem_filter.mp hc
  obtain ⟨slice, hslice, rfl⟩ := List.mem_map.mp hmem.1
  calc (pyStrip slice).length ≤ slice.length := pyStrip_length_le slice
    _ ≤ size := chunkLoop_mem_length text.length 0 slice hslice

theorem c10_hard_cap_witness :
    1 ≤ 3 ∧ ∀ c ∈ chunk_text (pys "xyzabcdefgh") 3, c.length ≤ 3 :=
  ⟨by decide, c10_hard_cap (pys "xyzabcdefgh") 3 (by decide)⟩

/-! ## Deduplication lemmas -/

/-- The rational value of an exact decimal. -/
noncomputable def Dec.val (d : Dec) : ℚ := (d.mant : ℚ) * (10 : ℚ) ^ d.exp

theorem Dec.beq_iff_val {a b : Dec} : Dec.beq a b = true ↔ a.val = b.val := by
  unfold Dec.beq Dec.val
  set m := min a.exp b.exp with hm
  have ha : a.exp - m ≥ 0 := by omega
  have hb : b.exp - m ≥ 0 := by omega
  have hpow : ∀ e : Int, e - m ≥ 0 →
      (10 : ℚ) ^ e = ((10 : Int) ^ (e - m).toNat : Int) * (10 : ℚ) ^ m := by
    intro e he
    push_cast
    rw [← zpow_natCast (10 : ℚ) (e - m).toNat, Int.toNat_of_nonneg he, ← zpow_add₀ (by norm_num)]
    congr 1
    omega
  rw [beq_iff_eq]
  constructor
  · intro h
    rw [hpow a.exp ha, hpow b.exp hb, ← mul_assoc, ← mul_assoc]
    congr 1
    have := congrArg (fun z : Int => (z : ℚ)) h
    push_cast at this ⊢
    linarith
  · intro h
    rw [hpow a.exp ha, hpow b.exp hb, ← mul_assoc, ← mul_assoc] at h
    have h10 : (10 : ℚ) ^ m ≠ 0 := zpow_ne_zero _ (by norm_num)
    have h2 := mul_right_cancel₀ h10 h
    have : ((a.mant * (10 : Int) ^ (a.exp - m).toNat : Int) : ℚ)
        = ((b.mant * (10 : Int) ^ (b.exp - m).toNat : Int) : ℚ) := by
      push_cast at h2 ⊢
      linarith
    exact_mod_cast this

theorem PyFloat.peq_congr {a b : PyFloat} (h : PyFloat.peq a b = true) :
    ∀ c, PyFloat.peq c a = PyFloat.peq c b := by
  intro c
  cases a <;> cases b <;> cases c <;> simp_all [PyFloat.peq]
  · rw [Dec.beq_iff_val] at h
    rw [Bool.eq_iff_iff]
    simp only [Dec.beq_iff_val]
    rw [h]

theorem keyEq_congr {a b : List Char × List Char × PyFloat × PyFloat}
    (h : keyEq a b = true) : ∀ c, keyEq c a = keyEq c b := by
  intro c
  unfold keyEq at *
  simp only [Bool.and_eq_true, beq_iff_eq] at h
  obtain ⟨⟨⟨h1, h2⟩, h3⟩, h4⟩ := h
  rw [h1, h2, PyFloat.peq_congr h3, PyFloat.peq_congr h4]

theorem dedupLoop_sublist : ∀ (seen : List (List Char × List Char × PyFloat × PyFloat))
    (l : List Txn), (dedupLoop seen l).Sublist l
  | _, [] => List.Sublist.refl []
  | seen, r :: rs => by
    rw [dedupLoop]
    split
    · exact (dedupLoop_sublist seen rs).cons r
    · exact (dedupLoop_sublist _ rs).cons₂ r

theorem dedupLoop_mem_not_seen :
    ∀ (seen : List (List Char × List Char × PyFloat × PyFloat)) (l : List Txn) (r : Txn),
    r ∈ dedupLoop seen l → seen.any (fun k => keyEq k (txnKey r)) = false
  | seen, [], r, h => by
    rw [show dedupLoop seen [] = [] from rfl] at h
    exact absurd h (List.not_mem_nil r)
  | seen, x :: rs, r, h => by
    rw [dedupLoop] at h
    split at h
    · exact dedupLoop_mem_not_seen seen rs r h
    · rcases List.mem_cons.mp h with rfl | hmem
      · rename_i hns
        cases hb : seen.any (fun k => keyEq k (txnKey r)) with
        | false => rfl
        | true => exact absurd hb hns
      · have := dedupLoop_mem_not_seen _ rs r hmem
        simp only [List.any_cons, Bool.or_eq_false_iff] at this
        exact this.2

theorem dedupLoop_pairwise :
    ∀ (seen : List (List Char × List Char × PyFloat × PyFloat)) (l : List Txn),
    (dedupLoop seen l).Pairwise (fun a b => keyEq (txnKey a) (txnKey b) = false)
  | _, [] => List.Pairwise.nil
  | seen, r :: rs => by
    rw [dedupLoop]
    split
    · exact dedupLoop_pairwise seen rs
    · refine List.Pairwise.cons ?_ (dedupLoop_pairwise _ rs)
      intro b hb
      have := dedupLoop_mem_not_seen _ rs b hb
      simp only [List.any_cons, Bool.or_eq_false_iff] at this
      exact this.1

theorem dedupLoop_find? :
    ∀ (seen : List (List Char × List Char × PyFloat × PyFloat)) (l : List Txn)
    (k : List Char × List Char × PyFloat × PyFloat),
    seen.any (fun s => keyEq s k) = false →
    (dedupLoop seen l).find? (fun r => keyEq (txnKey r) k)
      = l.find? (fun r => keyEq (txnKey r) k)
  | _, [], _, _ => rfl
  | seen, r :: rs, k, hseen => by
    rw [dedupLoop]
    by_cases hrk : keyEq (txnKey r) k = true
    · have hfun : (fun s => keyEq s (txnKey r)) = fun s => keyEq s k :=
        funext (fun s => keyEq_congr hrk s)
      have hseen' : seen.any (fun s => keyEq s (txnKey r)) = false := by rw [hfun, hseen]
      rw [if_neg (by simp [hseen'])]
      simp only [List.find?_cons, hrk]
    · have hrk' : keyEq (txnKey r) k = false := by simpa using hrk
      split
      · simp only [List.find?_cons, hrk']
        exact dedupLoop_find? seen rs k hseen
      · simp only [List.find?_cons, hrk']
        apply dedupLoop_find?
        simp only [List.any_cons, Bool.or_eq_false_iff]
        exact ⟨hrk', hseen⟩

theorem dedupLoop_covers :
    ∀ (seen : List (List Char × List Char × PyFloat × PyFloat)) (l : List Txn) (r : Txn),
    r ∈ l → seen.any (fun s => keyEq s (txnKey r)) = false →
    r ∈ dedupLoop seen l
      ∨ ∃ r' ∈ dedupLoop seen l, keyEq (txnKey r') (txnKey r) = true
  | _, [], r, hmem, _ => absurd hmem (List.not_mem_nil r)
  | seen, x :: rs, r, hmem, hseen => by
    rw [dedupLoop]
    rcases List.mem_cons.mp hmem with rfl | hmem'
    · rw [if_neg (by simp [hseen])]
      exact Or.inl (List.mem_cons_self r _)
    · split
      · exact dedupLoop_covers seen rs r hmem' hseen
      · by_cases hxr : keyEq (txnKey x) (txnKey r) = true
        · exact Or.inr ⟨x, List.mem_cons_self x _, hxr⟩
        · have := dedupLoop_covers (txnKey x :: seen) rs r hmem'
            (by simp only [List.any_cons, Bool.or_eq_false_iff]
                exact ⟨by simpa using hxr, hseen⟩)
          rcases this with h | ⟨r', hr', hk⟩
          · exact Or.inl (List.mem_cons_of_mem x h)
          · exact Or.inr ⟨r', List.mem_cons_of_mem x hr', hk⟩

/-- C3: deduplication keys each record by
`(date, description[:40], debit, credit)` (key equality being Python `==` on
the tuple, `keyEq`): the output is a subsequence of the input (first-seen
order); no two emitted records have equal keys; for every key the first
matching record of the output is the first matching record of the input (the
first-seen record is the one retained); every input record is either emitted
or matched by an earlier emitted record; and two records agreeing on the key
— e.g. differing only in `balance` — collapse to the first. -/
theorem c3_dedup (l : List Txn) :
    (dedup l).Sublist l
    ∧ (dedup l).Pairwise (fun a b => keyEq (txnKey a) (txnKey b) = false)
    ∧ (∀ k, (dedup l).find? (fun r => keyEq (txnKey r) k)
        = l.find? (fun r => keyEq (txnKey r) k))
    ∧ (∀ r ∈ l, r ∈ dedup l ∨ ∃ r' ∈ dedup l, keyEq (txnKey r') (txnKey r) = true)
    ∧ ∀ a b : Txn, keyEq (txnKey a) (txnKey b) = true → dedup [a, b] = [a] := by
  refine ⟨dedupLoop_sublist [] l, dedupLoop_pairwise [] l,
    fun k => dedupLoop_find? [] l k rfl,
    fun r hr => dedupLoop_covers [] l r hr rfl, ?_⟩
  intro a b hab
  unfold dedup dedupLoop
  rw [if_neg (by simp)]
  rw [show dedupLoop [txnKey a] [b]
      = if [txnKey a].any (fun k => keyEq k (txnKey b)) then dedupLoop [txnKey a] []
        else b :: dedupLoop (txnKey b :: [txnKey a]) [] from rfl]
  rw [if_pos (by simp [hab])]
  rfl

theorem c3_dedup_witness :
    keyEq (txnKey (Txn.mk (pys "01/12/2025") (pys "01/12/2025") (pys "POS PURCHASE")
        (PyFloat.finite ⟨703731, -2⟩) PyFloat.zero (PyFloat.finite ⟨100, 0⟩)))
      (txnKey (Txn.mk (pys "01/12/2025") (pys "01/12/2025") (pys "POS PURCHASE")
        (PyFloat.finite ⟨703731, -2⟩) PyFloat.zero (PyFloat.finite ⟨999, 0⟩))) = true
    ∧ dedup [Txn.mk (pys "01/12/2025") (pys "01/12/2025") (pys "POS PURCHASE")
        (PyFloat.finite ⟨703731, -2⟩) PyFloat.zero (PyFloat.finite ⟨100, 0⟩),
        Txn.mk (pys "01/12/2025") (pys "01/12/2025") (pys "POS PURCHASE")
        (PyFloat.finite ⟨703731, -2⟩) PyFloat.zero (PyFloat.finite ⟨999, 0⟩)]
      = [Txn.mk (pys "01/12/2025") (pys "01/12/2025") (pys "POS PURCHASE")
        (PyFloat.finite ⟨703731, -2⟩) PyFloat.zero (PyFloat.finite ⟨100, 0⟩)] :=
  ⟨by decide, (c3_dedup []).2.2.2.2 _ _ (by decide)⟩

/-- C4 (counterexample): a page whose positional and Camelot strategies yield
nothing and whose OCR invocation raises commits to the inline error marker
`"[OCR ERROR: boom]"` — a collaborator failure that is *not* treated as an
empty yield, contradicting the claim that any collaborator invocation failure
is treated as an empty yield. -/
theorem c4_counterexample :
    extractPage [] (Except.error (pys "no tables")) (Except.error (pys "boom"))
      = pys "[OCR ERROR: boom]"
    ∧ pys "[OCR ERROR: boom]" ≠ ([] : List Char) := by
  refine ⟨by decide, by decide⟩

/-- C4 (amended): the chain advances from the positional yield to Camelot to
OCR exactly when the current yield strips to fewer than 50 characters,
committing to the first yield meeting the threshold and to the OCR yield —
whatever it is — when none does; a Camelot invocation failure is caught and
treated as an empty yield, but an OCR invocation failure is caught and yields
the inline marker `"[OCR ERROR: {e}]"`, which is not empty. -/
theorem c4_fallback_chain :
    (∀ (p : List Char) (c o : Except (List Char) (List Char)),
      50 ≤ (pyStrip p).length → extractPage p c o = p)
    ∧ (∀ (p : List Char) (c o : Except (List Char) (List Char)),
      (pyStrip p).length < 50 → 50 ≤ (pyStrip (_try_camelot c)).length →
      extractPage p c o = _try_camelot c)
    ∧ (∀ (p : List Char) (c o : Except (List Char) (List Char)),
      (pyStrip p).length < 50 → (pyStrip (_try_camelot c)).length < 50 →
      extractPage p c o = _ocr_page o)
    ∧ (∀ e, _try_camelot (Except.error e) = [])
    ∧ (∀ e, _ocr_page (Except.error e) = pys "[OCR ERROR: " ++ e ++ [']']) := by
  refine ⟨?_, ?_, ?_, fun e => rfl, fun e => rfl⟩
  · intro p c o h
    simp only [extractPage]
    rw [if_neg (show ¬ (pyStrip p).length < 50 by omega)]
    rw [if_neg (show ¬ (pyStrip p).length < 50 by omega)]
  · intro p c o h1 h2
    simp only [extractPage]
    rw [if_pos h1]
    rw [if_neg (by omega)]
  · intro p c o h1 h2
    simp only [extractPage]
    rw [if_pos h1]
    rw [if_pos h2]

theorem c4_fallback_chain_witness :
    50 ≤ (pyStrip (pys "0123456789012345678901234567890123456789012345678901234")).length
    ∧ extractPage (pys "0123456789012345678901234567890123456789012345678901234")
        (Except.error []) (Except.error [])
      = pys "0123456789012345678901234567890123456789012345678901234" :=
  ⟨by decide, c4_fallback_chain.1 _ _ _ (by decide)⟩

/-- C7: every record emitted by `_parse_chunk` comes from a mapping candidate
of the salvage cascade's result and carries all six fields (the `Txn`
structure makes the six fields present by construction); string fields default
to the empty string and numeric fields to `0.0` whenever the corresponding key
is absent from the candidate. -/
theorem c7_record_shape :
    (∀ (raw : List Char) (t : Txn), t ∈ parseChunkRows raw →
      ∃ d, JVal.jobj d ∈ rowsElems (_extract_json raw)
        ∧ cleanCandidate (JVal.jobj d) = some t)
    ∧ (∀ (d : List (List Char × JVal)) (t : Txn), cleanCandidate (JVal.jobj d) = some t →
      (jGet d (pys "date") = none → t.date = [])
      ∧ (jGet d (pys "value_date") = none → t.value_date = [])
      ∧ (jGet d (pys "description") = none → t.description = [])
      ∧ (jGet d (pys "debit") = none → t.debit = PyFloat.zero)
      ∧ (jGet d (pys "credit") = none → t.credit = PyFloat.zero)
      ∧ (jGet d (pys "balance") = none → t.balance = PyFloat.zero)) := by
  constructor
  · intro raw t ht
    unfold parseChunkRows at ht
    obtain ⟨r, hr, hclean⟩ := List.mem_filterMap.mp ht
    cases r with
    | jobj d => exact ⟨d, hr, hclean⟩
    | jnull => simp [cleanCandidate] at hclean
    | jbool b => simp [cleanCandidate] at hclean
    | jnum i v => simp [cleanCandidate] at hclean
    | jnan => simp [cleanCandidate] at hclean
    | jinf p => simp [cleanCandidate] at hclean
    | jstr s => simp [cleanCandidate] at hclean
    | jarr l => simp [cleanCandidate] at hclean
  · intro d t h
    simp only [cleanCandidate, Option.some.injEq] at h
    subst h
    refine ⟨?_, ?_, ?_, ?_, ?_, ?_⟩ <;> intro habs <;>
      simp only [jGetD, habs, Option.getD_none] <;> decide

theorem c7_record_shape_witness :
    (∃ d, JVal.jobj d ∈ rowsElems (_extract_json (pys "[\x7b\x7d]"))
      ∧ cleanCandidate (JVal.jobj d)
        = some (Txn.mk [] [] [] PyFloat.zero PyFloat.zero PyFloat.zero))
    ∧ ((Txn.mk [] [] [] PyFloat.zero PyFloat.zero PyFloat.zero).date = []
      ∧ (Txn.mk [] [] [] PyFloat.zero PyFloat.zero PyFloat.zero).debit = PyFloat.zero) :=
  ⟨c7_record_shape.1 (pys "[\x7b\x7d]")
      (Txn.mk [] [] [] PyFloat.zero PyFloat.zero PyFloat.zero) (by decide),
    (c7_record_shape.2 [] (Txn.mk [] [] [] PyFloat.zero PyFloat.zero PyFloat.zero)
      (by decide)).1 rfl,
    ((c7_record_shape.2 [] (Txn.mk [] [] [] PyFloat.zero PyFloat.zero PyFloat.zero)
      (by decide)).2.2.2).1 rfl⟩

/-! ## Numeric normalization (C2) -/

/-- C2 (counterexample): the sentinel test is exact, not case-insensitive, and
Python's `float()` itself accepts `"NaN"`, so `_clean_num("NaN")` is the float
`nan`, not `0.0`. -/
theorem c2_counterexample :
    _clean_num (JVal.jstr (pys "NaN")) = PyFloat.nan
    ∧ PyFloat.nan ≠ PyFloat.zero :=
  ⟨by rfl, by decide⟩

theorem contains_false_of_not_mem {l : List (List Char)} {x : List Char}
    (h : x ∉ l) : l.contains x = false := by
  induction l with
  | nil => rfl
  | cons a t ih =>
    simp only [List.contains_cons, Bool.or_eq_false_iff]
    constructor
    · have : x ≠ a := fun he => h (he ▸ List.mem_cons_self a t)
      simpa using this
    · exact ih (fun hm => h (List.mem_cons_of_mem a hm))

theorem contains_true_of_mem {l : List (List Char)} {x : List Char}
    (h : x ∈ l) : l.contains x = true := by
  induction l with
  | nil => exact absurd h (List.not_mem_nil x)
  | cons a t ih =>
    simp only [List.contains_cons, Bool.or_eq_true]
    rcases List.mem_cons.mp h with rfl | hm
    · exact Or.inl (by simp)
    · exact Or.inr (ih hm)

theorem stripParens_wrap {u : List Char}
    (hhead : ∀ c, u.head? = some c → c ≠ '(' ∧ c ≠ ')')
    (hlast : ∀ c, u.getLast? = some c → c ≠ '(' ∧ c ≠ ')') :
    stripParens ('(' :: u ++ [')']) = u := by
  unfold stripParens
  cases u with
  | nil => rfl
  | cons c0 u' =>
    have hc0 := hhead c0 rfl
    rw [show ('(' : Char) :: (c0 :: u') ++ [')'] = '(' :: c0 :: (u' ++ [')']) by simp]
    rw [List.dropWhile_cons, if_pos (by simp), List.dropWhile_cons,
      if_neg (by simp [hc0.1, hc0.2])]
    have h2 : (c0 :: (u' ++ [')'])).reverse = ')' :: ((c0 :: u').reverse) := by simp
    rw [h2, List.dropWhile_cons, if_pos (by simp)]
    have h3 : List.dropWhile (fun c => c = '(' || c = ')') ((c0 :: u').reverse)
        = (c0 :: u').reverse := by
      cases hrevu : (c0 :: u').reverse with
      | nil => simp at hrevu
      | cons ch tl =>
        have hch : (c0 :: u').getLast? = some ch := by
          rw [List.getLast?_eq_head?_reverse, hrevu]
          rfl
        have hc := hlast ch hch
        rw [List.dropWhile_cons, if_neg (by simp [hc.1, hc.2])]
    rw [h3, List.reverse_reverse]

/-- C2 (amended): `None` and any value whose whitespace-stripped string form
is exactly one of `""`, `"-"`, `"nil"`, `"Nil"`, `"N/A"`, `"nan"` map to
`0.0`; the cleaned string contains no `#`, `,` or whitespace (thousands
separators, internal whitespace and — via the preceding replacements — the
currency markers are stripped); a cleaned value wholly enclosed in parentheses
is parsed without them and negated; any remaining text Python's `float()`
rejects yields `0.0`; but a case variant of `"nan"` other than the exact
sentinel (e.g. `"NaN"`) is accepted by `float()` and yields the float `nan`,
not `0.0` — so the examples behave as claimed while case-insensitivity fails
only on `nan` (and `inf`) variants. -/
theorem c2_clean_num :
    _clean_num JVal.jnull = PyFloat.zero
    ∧ (∀ s : List Char, pyStrip s ∈ sentinels → _clean_num (JVal.jstr s) = PyFloat.zero)
    ∧ (∀ s : List Char, ∀ c ∈ cleanNumStr s, ¬(c = '#' ∨ c = ',' ∨ pyWs c = true))
    ∧ (∀ s : List Char, pyFloatOfStr (stripParens (cleanNumStr s)) = none →
        _clean_num (JVal.jstr s) = PyFloat.zero)
    ∧ (∀ (s u : List Char) (f : PyFloat), pyStrip s ∉ sentinels →
        cleanNumStr s = '(' :: u ++ [')'] →
        (∀ c, u.head? = some c → c ≠ '(' ∧ c ≠ ')') →
        (∀ c, u.getLast? = some c → c ≠ '(' ∧ c ≠ ')') →
        pyFloatOfStr u = some f →
        _clean_num (JVal.jstr s) = f.neg)
    ∧ _clean_num (JVal.jstr (pys "7,037.31")) = PyFloat.finite ⟨703731, -2⟩
    ∧ _clean_num (JVal.jstr (pys "(500.00)")) = PyFloat.finite ⟨-50000, -2⟩
    ∧ PyFloat.peq (_clean_num (JVal.jstr (pys "(500.00)"))) (PyFloat.finite ⟨-500, 0⟩) = true
    ∧ _clean_num (JVal.jstr (pys "N/A")) = PyFloat.zero
    ∧ _clean_num (JVal.jstr []) = PyFloat.zero
    ∧ _clean_num (JVal.jstr (pys "₦330,000.00")) = PyFloat.finite ⟨33000000, -2⟩
    ∧ PyFloat.peq (_clean_num (JVal.jstr (pys "₦330,000.00")))
        (PyFloat.finite ⟨330000, 0⟩) = true
    ∧ _clean_num (JVal.jstr (pys "NaN")) = PyFloat.nan := by
  refine ⟨by rfl, ?_, ?_, ?_, ?_,
    by rfl, by rfl, by decide, by rfl, by rfl, by rfl, by decide, by rfl⟩
  · intro s hs
    unfold _clean_num
    rw [if_pos (by
      simp only [JVal.isNull, Bool.false_or]
      exact contains_true_of_mem hs)]
  · intro s c hc
    unfold cleanNumStr cleanSeps at hc
    have := (List.mem_filter.mp hc).2
    intro habs
    rcases habs with h | h | h <;> simp [h] at this
  · intro s hnone
    unfold _clean_num
    split
    · rfl
    · dsimp only []
      have hnone' : pyFloatOfStr (stripParens (cleanNumStr (pyStr (JVal.jstr s)))) = none :=
        hnone
      rw [hnone']
  · intro s u f hsent hclean hhead hlast hparse
    unfold _clean_num
    rw [if_neg (by
      simp only [JVal.isNull, Bool.false_or, Bool.not_eq_true]
      exact contains_false_of_not_mem hsent)]
    dsimp only []
    have hclean' : cleanNumStr (pyStr (JVal.jstr s)) = '(' :: u ++ [')'] := hclean
    rw [hclean', stripParens_wrap hhead hlast, hparse]
    have hgl : ('(' :: (u ++ [')'])).getLast? = some ')' := by
      rw [show ('(' : Char) :: (u ++ [')']) = ('(' :: u) ++ [')'] by simp]
      exact List.getLast?_concat _
    simp [List.cons_append, hgl]

theorem c2_clean_num_witness :
    (pyStrip (pys "nil") ∈ sentinels ∧ _clean_num (JVal.jstr (pys "nil")) = PyFloat.zero)
    ∧ (pyFloatOfStr (stripParens (cleanNumStr (pys "abc"))) = none
      ∧ _clean_num (JVal.jstr (pys "abc")) = PyFloat.zero)
    ∧ (pyStrip (pys "(42)") ∉ sentinels
      ∧ _clean_num (JVal.jstr (pys "(42)")) = (PyFloat.finite ⟨42, 0⟩).neg) :=
  ⟨⟨by decide, c2_clean_num.2.1 (pys "nil") (by decide)⟩,
   ⟨by rfl, c2_clean_num.2.2.2.1 (pys "abc") (by rfl)⟩,
   ⟨by decide,
    c2_clean_num.2.2.2.2.1 (pys "(42)") (pys "42") (PyFloat.finite ⟨42, 0⟩)
      (by decide) (by rfl)
      (by intro c hc; cases hc; exact ⟨by decide, by decide⟩)
      (by intro c hc; cases hc; exact ⟨by decide, by decide⟩)
      (by rfl)⟩⟩

/-! ## The salvage cascade (C1) -/

/-- C1 (counterexample): on `{"transactions": 5}` the cascade returns the
number `5` — strategy 1 passes a parsed mapping's `"transactions"` member
through without checking that it is a list, so the result is not always a
list. -/
theorem c1_counterexample :
    _extract_json (pys "\x7b\"transactions\": 5\x7d") = JVal.jnum true ⟨5, 0⟩
    ∧ (_extract_json (pys "\x7b\"transactions\": 5\x7d")).isList = false :=
  ⟨by rfl, by rfl⟩

theorem stratDirect_some {s : List Char} {v : JVal} (h : stratDirect s = some v) :
    (∃ l, v = JVal.jarr l)
    ∨ ∃ d, pyLoads s = some (JVal.jobj d) ∧ jGet d (pys "transactions") = some v := by
  unfold stratDirect at h
  split at h
  · rename_i l heq
    cases h
    exact Or.inl ⟨l, rfl⟩
  · rename_i d heq
    exact Or.inr ⟨d, heq, h⟩
  · exact absurd h (by simp)

theorem strat3_some {s : List Char} {v : JVal} (h : strat3 s = some v) :
    ∃ l, v = JVal.jarr l := by
  unfold strat3 at h
  split at h
  · split at h
    · split at h
      · rename_i l heq
        cases h
        exact ⟨l, rfl⟩
      · exact absurd h (by simp)
    · exact absurd h (by simp)
  · exact absurd h (by simp)

theorem strat4_some {s : List Char} {v : JVal} (h : strat4 s = some v) :
    ∃ l, v = JVal.jarr l := by
  unfold strat4 at h
  dsimp only [] at h
  split at h
  · split at h
    · rename_i l heq
      cases h
      exact ⟨l, rfl⟩
    · exact absurd h (by simp)
  · exact absurd h (by simp)

/-- C1 (amended): `_extract_json` is a total function (the shallow embedding
is a plain Lean function, so it terminates without raising on every input);
when all five strategies yield nothing it returns the empty list; and its
result is always a list **except** when strategy 1 or 2 parses a mapping and
returns its `"transactions"` member as-is, which may be any value. -/
theorem c1_extract_json :
    (∀ raw : List Char,
      stratDirect raw = none →
      stratDirect (pyStrip (stripFences raw)) = none →
      strat3 (pyStrip (stripFences raw)) = none →
      strat4 (pyStrip (stripFences raw)) = none →
      _extract_json raw = JVal.jarr (strat5 (pyStrip (stripFences raw))))
    ∧ (∀ raw : List Char,
      stratDirect raw = none →
      stratDirect (pyStrip (stripFences raw)) = none →
      strat3 (pyStrip (stripFences raw)) = none →
      strat4 (pyStrip (stripFences raw)) = none →
      strat5 (pyStrip (stripFences raw)) = [] →
      _extract_json raw = JVal.jarr [])
    ∧ (∀ raw : List Char, (_extract_json raw).isList = false →
      ∃ d, (pyLoads raw = some (JVal.jobj d)
          ∨ pyLoads (pyStrip (stripFences raw)) = some (JVal.jobj d))
        ∧ jGet d (pys "transactions") = some (_extract_json raw)) := by
  have hbase : ∀ raw : List Char,
      stratDirect raw = none →
      stratDirect (pyStrip (stripFences raw)) = none →
      strat3 (pyStrip (stripFences raw)) = none →
      strat4 (pyStrip (stripFences raw)) = none →
      _extract_json raw = JVal.jarr (strat5 (pyStrip (stripFences raw))) := by
    intro raw h1 h2 h3 h4
    unfold _extract_json
    rw [h1]
    dsimp only []
    rw [h2, h3, h4]
  refine ⟨hbase, ?_, ?_⟩
  · intro raw h1 h2 h3 h4 h5
    rw [hbase raw h1 h2 h3 h4, h5]
  · intro raw hnl
    cases hd1 : stratDirect raw with
    | some v =>
      have hev : _extract_json raw = v := by
        unfold _extract_json
        rw [hd1]
      rcases stratDirect_some hd1 with ⟨l, rfl⟩ | ⟨d, hload, hget⟩
      · rw [hev] at hnl
        simp [JVal.isList] at hnl
      · exact ⟨d, Or.inl hload, by rw [hev]; exact hget⟩
    | none =>
      cases hd2 : stratDirect (pyStrip (stripFences raw)) with
      | some v =>
        have hev : _extract_json raw = v := by
          unfold _extract_json
          rw [hd1]
          dsimp only []
          rw [hd2]
        rcases stratDirect_some hd2 with ⟨l, rfl⟩ | ⟨d, hload, hget⟩
        · rw [hev] at hnl
          simp [JVal.isList] at hnl
        · exact ⟨d, Or.inr hload, by rw [hev]; exact hget⟩
      | none =>
        cases hd3 : strat3 (pyStrip (stripFences raw)) with
        | some v =>
          have hev : _extract_json raw = v := by
            unfold _extract_json
            rw [hd1]
            dsimp only []
            rw [hd2, hd3]
          obtain ⟨l, rfl⟩ := strat3_some hd3
          rw [hev] at hnl
          simp [JVal.isList] at hnl
        | none =>
          cases hd4 : strat4 (pyStrip (stripFences raw)) with
          | some v =>
            have hev : _extract_json raw = v := by
              unfold _extract_json
              rw [hd1]
              dsimp only []
              rw [hd2, hd3, hd4]
            obtain ⟨l, rfl⟩ := strat4_some hd4
            rw [hev] at hnl
            simp [JVal.isList] at hnl
          | none =>
            have hev : _extract_json raw
                = JVal.jarr (strat5 (pyStrip (stripFences raw))) := by
              unfold _extract_json
              rw [hd1]
              dsimp only []
              rw [hd2, hd3, hd4]
            rw [hev] at hnl
            simp [JVal.isList] at hnl

theorem c1_extract_json_witness :
    (stratDirect (pys "hello") = none
      ∧ stratDirect (pyStrip (stripFences (pys "hello"))) = none
      ∧ strat3 (pyStrip (stripFences (pys "hello"))) = none
      ∧ strat4 (pyStrip (stripFences (pys "hello"))) = none
      ∧ strat5 (pyStrip (stripFences (pys "hello"))) = []
      ∧ _extract_json (pys "hello") = JVal.jarr [])
    ∧ ((_extract_json (pys "\x7b\"transactions\": 5\x7d")).isList = false
      ∧ ∃ d, (pyLoads (pys "\x7b\"transactions\": 5\x7d") = some (JVal.jobj d)
          ∨ pyLoads (pyStrip (stripFences (pys "\x7b\"transactions\": 5\x7d")))
            = some (JVal.jobj d))
        ∧ jGet d (pys "transactions")
          = some (_extract_json (pys "\x7b\"transactions\": 5\x7d"))) :=
  ⟨⟨by rfl, by rfl, by rfl, by rfl, by rfl,
    c1_extract_json.2.1 (pys "hello") (by rfl) (by rfl) (by rfl) (by rfl) (by rfl)⟩,
   ⟨by rfl, c1_extract_json.2.2 (pys "\x7b\"transactions\": 5\x7d") (by rfl)⟩⟩

/-! ## Row building (C8) -/

theorem sortByX_perm (row : List Tok) : (sortByX row).Perm row :=
  List.perm_insertionSort _ row

theorem sortByX_ne_nil {row : List Tok} (h : row ≠ []) : sortByX row ≠ [] := by
  intro habs
  exact h (List.Perm.eq_nil ((sortByX_perm row).symm.trans (habs ▸ List.Perm.refl _)))

theorem rowLoop_flatten_perm (tol : ℚ) :
    ∀ (ws : List Word) (cy : ℚ) (cur : List Tok),
    (rowLoop tol cy cur ws).flatten.Perm (cur ++ ws.map toTok) := by
  intro ws
  induction ws with
  | nil =>
    intro cy cur
    simp only [rowLoop, List.map_nil, List.append_nil]
    split
    · simp only [List.flatten_cons, List.flatten_nil, List.append_nil]
      exact sortByX_perm cur
    · rename_i hcur
      have hc : cur = [] := List.isEmpty_iff.mp (by simpa using hcur)
      subst hc
      rfl
  | cons w ws ih =>
    intro cy cur
    simp only [rowLoop]
    split
    · refine (ih cy (cur ++ [toTok w])).trans ?_
      simp
    · rw [List.flatten_append]
      have h2 := ih w.y0 [toTok w]
      have h1 : (if (!cur.isEmpty) = true then [sortByX cur] else []).flatten.Perm cur := by
        split
        · simp only [List.flatten_cons, List.flatten_nil, List.append_nil]
          exact sortByX_perm cur
        · rename_i hcur
          have hc : cur = [] := List.isEmpty_iff.mp (by simpa using hcur)
          subst hc
          rfl
      refine (List.Perm.append h1 h2).trans ?_
      simp

theorem rowLoop_anchor (tol : ℚ) :
    ∀ (ws : List Word) (cy : ℚ) (cur : List Tok),
    (∀ t ∈ cur, |t.y0 - cy| ≤ tol) →
    (cur ≠ [] → ∃ a ∈ cur, a.y0 = cy) →
    (cur = [] → ∀ w, ws.head? = some w → w.y0 = cy) →
    (0 ≤ tol) →
    ∀ row ∈ rowLoop tol cy cur ws,
      row ≠ [] ∧ ∃ a ∈ row, ∀ t ∈ row, |t.y0 - a.y0| ≤ tol := by
  intro ws
  induction ws with
  | nil =>
    intro cy cur hcur hanchor _ htol row hrow
    simp only [rowLoop] at hrow
    split at hrow
    · rename_i hne
      rcases List.mem_cons.mp hrow with rfl | h
      · have hcne : cur ≠ [] := by
          intro habs
          rw [habs] at hne
          simp at hne
        obtain ⟨a, ha, hay⟩ := hanchor hcne
        refine ⟨sortByX_ne_nil hcne, a, (sortByX_perm cur).mem_iff.mpr ha, ?_⟩
        intro t ht
        rw [hay]
        exact hcur t ((sortByX_perm cur).mem_iff.mp ht)
      · simp at h
    · simp at hrow
  | cons w ws ih =>
    intro cy cur hcur hanchor hempty htol row hrow
    simp only [rowLoop] at hrow
    split at hrow
    · rename_i hwin
      refine ih cy (cur ++ [toTok w]) ?_ ?_ ?_ htol row hrow
      · intro t ht
        rcases List.mem_append.mp ht with h | h
        · exact hcur t h
        · rw [List.mem_singleton.mp h]
          exact hwin
      · intro _
        cases hc : cur with
        | nil =>
          have : w.y0 = cy := hempty hc w rfl
          exact ⟨toTok w, by simp [hc], this⟩
        | cons c0 ctl =>
          obtain ⟨a, ha, hay⟩ := hanchor (by simp [hc])
          subst hc
          exact ⟨a, List.mem_append_left _ ha, hay⟩
      · intro habs
        simp at habs
    · rcases List.mem_append.mp hrow with h | h
      · split at h
        · rename_i hne
          rcases List.mem_cons.mp h with rfl | h2
          · have hcne : cur ≠ [] := by
              intro habs
              rw [habs] at hne
              simp at hne
            obtain ⟨a, ha, hay⟩ := hanchor hcne
            refine ⟨sortByX_ne_nil hcne, a, (sortByX_perm cur).mem_iff.mpr ha, ?_⟩
            intro t ht
            rw [hay]
            exact hcur t ((sortByX_perm cur).mem_iff.mp ht)
          · simp at h2
        · simp at h
      · refine ih w.y0 [toTok w] ?_ ?_ ?_ htol row h
        · intro t ht
          rw [List.mem_singleton.mp ht]
          simpa [toTok] using htol
        · intro _
          exact ⟨toTok w, List.mem_singleton_self _, rfl⟩
        · intro habs
          simp at habs

/-- C8 (amended): the rows of `_rows_from_words` partition the input tokens
(the concatenation of the rows is a permutation of the token list), and — for
a non-negative tolerance — every row is non-empty and anchored: some token of
the row is within tolerance of every other token of the row.  Tokens merely
within tolerance of *each other* are not guaranteed to share a row (see the
counterexample): the loop compares against the row's anchor, not pairwise. -/
theorem c8_rows (word_list : List Word) (y_tol : ℤ) :
    (_rows_from_words word_list y_tol).flatten.Perm (word_list.map toTok)
    ∧ (0 ≤ y_tol →
      ∀ row ∈ _rows_from_words word_list y_tol,
        row ≠ [] ∧ ∃ a ∈ row, ∀ t ∈ row, |t.y0 - a.y0| ≤ (y_tol : ℚ)) := by
  constructor
  · unfold _rows_from_words
    cases hsort : List.insertionSort (wordLe y_tol) word_list with
    | nil =>
      have hperm := List.perm_insertionSort (wordLe y_tol) word_list
      rw [hsort] at hperm
      rw [← List.Perm.nil_eq hperm]
      rfl
    | cons w0 rest =>
      have hperm := List.perm_insertionSort (wordLe y_tol) word_list
      rw [hsort] at hperm
      refine (rowLoop_flatten_perm _ (w0 :: rest) w0.y0 []).trans ?_
      simpa using hperm.map toTok
  · intro htol row hrow
    unfold _rows_from_words at hrow
    cases hsort : List.insertionSort (wordLe y_tol) word_list with
    | nil =>
      rw [hsort] at hrow
      simp at hrow
    | cons w0 rest =>
      rw [hsort] at hrow
      refine rowLoop_anchor _ (w0 :: rest) w0.y0 [] (by simp) (by simp) ?_
        (by exact_mod_cast htol) row hrow
      intro _ w hw
      cases hw
      rfl

/-- C8 (counterexample): with tolerance 5, the tokens at `y0 = 5` and
`y0 = 10` differ by exactly the tolerance yet land in different rows — the
loop measures deviation from the first row's anchor (`y0 = 0`), not between
the two tokens — refuting "any two tokens within tolerance of each other land
in the same row". -/
theorem c8_counterexample :
    _rows_from_words [Word.mk 0 0 1 1 [], Word.mk 0 5 1 1 [], Word.mk 0 10 1 1 []] 5
      = [[Tok.mk [] 0 1 0, Tok.mk [] 0 1 5], [Tok.mk [] 0 1 10]]
    ∧ |(5 : ℚ) - 10| ≤ ((5 : ℤ) : ℚ) := by
  constructor
  · have h05 : wordLe 5 (Word.mk 0 0 1 1 []) (Word.mk 0 5 1 1 []) := by
      norm_num [wordLe, sortKey, pyRound]
    have h010 : wordLe 5 (Word.mk 0 0 1 1 []) (Word.mk 0 10 1 1 []) := by
      norm_num [wordLe, sortKey, pyRound]
    have h510 : wordLe 5 (Word.mk 0 5 1 1 []) (Word.mk 0 10 1 1 []) := by
      norm_num [wordLe, sortKey, pyRound]
    have hsorted : List.insertionSort (wordLe 5)
        [Word.mk 0 0 1 1 [], Word.mk 0 5 1 1 [], Word.mk 0 10 1 1 []]
        = [Word.mk 0 0 1 1 [], Word.mk 0 5 1 1 [], Word.mk 0 10 1 1 []] := by
      apply List.Sorted.insertionSort_eq
      simp [List.sorted_cons, h05, h010, h510]
    unfold _rows_from_words
    rw [hsorted]
    simp only [rowLoop]
    norm_num [sortByX, List.insertionSort, List.orderedInsert, toTok]
  · norm_num

theorem c8_rows_witness :
    (0 : ℤ) ≤ 5
    ∧ ∀ row ∈ _rows_from_words [Word.mk 0 0 1 1 []] 5,
        row ≠ [] ∧ ∃ a ∈ row, ∀ t ∈ row, |t.y0 - a.y0| ≤ ((5 : ℤ) : ℚ) :=
  ⟨by decide, (c8_rows [Word.mk 0 0 1 1 []] 5).2 (by decide)⟩

/-! ## Whole-document gate (C9) -/

theorem intercalate_cons_cons (sep x y : List Char) (ys : List (List Char)) :
    List.intercalate sep (x :: y :: ys) = x ++ sep ++ List.intercalate sep (y :: ys) := by
  simp [List.intercalate, List.intersperse]

theorem intercalate_singleton (sep x : List Char) : List.intercalate sep [x] = x := by
  simp [List.intercalate, List.intersperse]

theorem pageBlock_len (i : Nat) :
    (pageBlock i []).length = 15 + (Nat.repr i).data.length := by
  simp [pageBlock, pys]
  omega

theorem pageBlock_head (i : Nat) :
    ∃ t, pageBlock i [] = '\n' :: '-' :: t :=
  ⟨pys "-- PAGE " ++ (Nat.repr i).data ++ pys " ---" ++ '\n' :: [], rfl⟩

theorem pageBlock_tail (i : Nat) :
    ∃ t, pageBlock i [] = t ++ ['-', '\n'] := by
  refine ⟨'\n' :: (pys "--- PAGE " ++ (Nat.repr i).data ++ pys " --"), ?_⟩
  simp [pageBlock, pys]

theorem docBody_succ (i n : Nat) (hn : 1 ≤ n) :
    List.intercalate ['\n'] (pageBlocksFrom i (List.replicate (n + 1) []))
      = pageBlock i []
        ++ '\n' :: List.intercalate ['\n'] (pageBlocksFrom (i + 1) (List.replicate n [])) := by
  obtain ⟨m, rfl⟩ : ∃ m, n = m + 1 := ⟨n - 1, by omega⟩
  rw [show pageBlocksFrom i (List.replicate (m + 1 + 1) [])
      = pageBlock i [] :: pageBlock (i + 1) []
        :: pageBlocksFrom (i + 2) (List.replicate m []) from rfl]
  rw [intercalate_cons_cons]
  rw [show pageBlocksFrom (i + 1) (List.replicate (m + 1) [])
      = pageBlock (i + 1) [] :: pageBlocksFrom (i + 2) (List.replicate m []) from rfl]
  simp

theorem docBody_len : ∀ n, 1 ≤ n → ∀ i,
    16 * n - 1 ≤ (List.intercalate ['\n'] (pageBlocksFrom i (List.replicate n []))).length := by
  intro n
  induction n with
  | zero => omega
  | succ m ih =>
    intro _ i
    by_cases hm : 1 ≤ m
    · rw [docBody_succ i m hm]
      have h1 := ih hm (i + 1)
      have h2 := pageBlock_len i
      simp only [List.length_append, List.length_cons]
      omega
    · have hm0 : m = 0 := by omega
      subst hm0
      rw [show pageBlocksFrom i (List.replicate 1 []) = [pageBlock i []] from rfl]
      rw [intercalate_singleton]
      have h2 := pageBlock_len i
      omega

theorem docBody_head : ∀ n, 1 ≤ n → ∀ i,
    ∃ t, List.intercalate ['\n'] (pageBlocksFrom i (List.replicate n []))
      = '\n' :: '-' :: t := by
  intro n
  induction n with
  | zero => omega
  | succ m _ =>
    intro _ i
    by_cases hm : 1 ≤ m
    · rw [docBody_succ i m hm]
      obtain ⟨t, ht⟩ := pageBlock_head i
      rw [ht]
      exact ⟨t ++ '\n' :: List.intercalate ['\n'] (pageBlocksFrom (i + 1) (List.replicate m [])),
        by simp⟩
    · have hm0 : m = 0 := by omega
      subst hm0
      rw [show pageBlocksFrom i (List.replicate 1 []) = [pageBlock i []] from rfl]
      rw [intercalate_singleton]
      exact pageBlock_head i

theorem docBody_tail : ∀ n, 1 ≤ n → ∀ i,
    ∃ t, List.intercalate ['\n'] (pageBlocksFrom i (List.replicate n []))
      = t ++ ['-', '\n'] := by
  intro n
  induction n with
  | zero => omega
  | succ m ih =>
    intro _ i
    by_cases hm : 1 ≤ m
    · rw [docBody_succ i m hm]
      obtain ⟨t, ht⟩ := ih hm (i + 1)
      rw [ht]
      exact ⟨pageBlock i [] ++ '\n' :: t, by simp⟩
    · have hm0 : m = 0 := by omega
      subst hm0
      rw [show pageBlocksFrom i (List.replicate 1 []) = [pageBlock i []] from rfl]
      rw [intercalate_singleton]
      exact pageBlock_tail i

theorem pyStrip_marker_len {s t1 pre : List Char}
    (hhead : s = '\n' :: '-' :: t1) (htail : s = pre ++ ['-', '\n']) :
    (pyStrip s).length = s.length - 2 := by
  subst hhead
  cases pre with
  | nil => simp at htail
  | cons p0 pre' =>
    rw [List.cons_append] at htail
    injection htail with hp0 htail2
    unfold pyStrip pyLstrip pyRstrip
    rw [List.dropWhile_cons, if_pos (by simp [pyWs]), List.dropWhile_cons,
      if_neg (by simp [pyWs])]
    rw [htail2]
    rw [show (pre' ++ ['-', '\n']).reverse = '\n' :: '-' :: pre'.reverse by simp]
    rw [List.dropWhile_cons, if_pos (by simp [pyWs]), List.dropWhile_cons,
      if_neg (by simp [pyWs])]
    have : ('-' :: t1).length = (pre' ++ ['-', '\n']).length := by rw [htail2]
    simp only [List.length_reverse, List.length_cons, List.length_append,
      List.length_nil] at this ⊢
    omega

/-- C9 (counterexample): a four-page document in which every page yields no
text at all is *not* reported as "no content": the per-page markers alone push
the stripped document text past the 50-character gate, so the run proceeds to
parsing and can only surface "no transactions found". -/
theorem c9_counterexample :
    noContentGate (docAllEmpty 4) = false
    ∧ (List.replicate 4 ([] : List Char)).all (fun p => p.isEmpty) = true :=
  ⟨by decide, by decide⟩

/-- C9 (amended): for a document none of whose pages yields any text, the
"no content" condition fires iff the document has at most 3 pages: from 4
pages up the page-marker scaffolding alone exceeds the 50-character
threshold, and the wholly-empty document flows on to the parsing stage (to be
reported, at best, as "no transactions found"). -/
theorem c9_no_content_gate (n : Nat) (hn : 1 ≤ n) :
    noContentGate (docAllEmpty n) = true ↔ n ≤ 3 := by
  by_cases h3 : n ≤ 3
  · interval_cases n <;> simp_all <;> decide
  · have h4 : 4 ≤ n := by omega
    have hlen := docBody_len n hn 1
    obtain ⟨t1, hhead⟩ := docBody_head n hn 1
    obtain ⟨pre, htail⟩ := docBody_tail n hn 1
    have hstrip := pyStrip_marker_len hhead htail
    unfold noContentGate docAllEmpty buildDocText at *
    rw [hstrip]
    have hne : ¬ (List.intercalate ['\n'] (pageBlocksFrom 1 (List.replicate n []))).isEmpty
        = true := by
      rw [hhead]
      simp
    simp only [Bool.or_eq_true, decide_eq_true_eq]
    constructor
    · intro hor
      rcases hor with habs | hlt
      · exact absurd habs hne
      · omega
    · intro habs
      omega

theorem c9_no_content_gate_witness :
    1 ≤ 1 ∧ (noContentGate (docAllEmpty 1) = true ↔ 1 ≤ 3) :=
  ⟨by decide, c9_no_content_gate 1 (by decide)⟩

/-! ## Truncation repair round trip (C5) -/

theorem skipWsJ_cons_of_not_ws {c : Char} (X : List Char) (h : jWs c = false) :
    skipWsJ (c :: X) = c :: X := by
  rw [skipWsJ, h]
  simp

theorem rt_parseJStrAux (v : List Char) :
    ∀ (acc rest : List Char), (∀ c ∈ v, plainChar c = true) →
    parseJStrAux acc (v ++ '"' :: rest) = some (acc.reverse ++ v, rest) := by
  induction v with
  | nil =>
    intro acc rest _
    rw [List.nil_append, parseJStrAux.eq_def]
    dsimp only []
    simp
  | cons c v' ih =>
    intro acc rest hplain
    have hc : plainChar c = true := hplain c (List.mem_cons_self c v')
    unfold plainChar at hc
    simp only [Bool.and_eq_true, decide_eq_true_eq] at hc
    rw [List.cons_append, parseJStrAux.eq_def]
    dsimp only []
    rw [if_neg hc.1.1.1.2, if_neg hc.1.1.2, if_neg (by omega)]
    rw [ih (c :: acc) rest (fun x hx => hplain x (List.mem_cons_of_mem c hx))]
    simp

theorem rt_parseJStr (v rest : List Char) (hplain : ∀ c ∈ v, plainChar c = true) :
    parseJStr (v ++ '"' :: rest) = some (v, rest) := by
  unfold parseJStr
  rw [rt_parseJStrAux v [] rest hplain]
  simp

theorem skipWsJ_eq_self {X : List Char} (h : ∀ c, X.head? = some c → jWs c = false) :
    skipWsJ X = X := by
  cases X with
  | nil => rfl
  | cons c t => exact skipWsJ_cons_of_not_ws t (h c rfl)

theorem renderPair_append (kv : List Char × List Char) (X : List Char) :
    renderPair kv ++ X = '"' :: (kv.1 ++ '"' :: ':' :: '"' :: (kv.2 ++ '"' :: X)) := by
  simp [renderPair]

theorem interc_pairs_head (kv2 : List Char × List Char)
    (fs : List (List Char × List Char)) (X : List Char) :
    (List.intercalate [','] ((kv2 :: fs).map renderPair) ++ X).head? = some '"' := by
  cases fs with
  | nil =>
    rw [List.map_singleton, intercalate_singleton, renderPair_append]
    rfl
  | cons kv3 fs' =>
    rw [List.map_cons, List.map_cons, intercalate_cons_cons]
    rw [show renderPair kv2 ++ [','] ++ List.intercalate [','] (renderPair kv3 :: fs'.map renderPair) ++ X
        = renderPair kv2 ++ ([','] ++ (List.intercalate [','] (renderPair kv3 :: fs'.map renderPair) ++ X)) by simp]
    rw [renderPair_append]
    rfl

theorem parseVal_quote (g : Nat) (X : List Char) :
    parseVal (g + 1) ('"' :: X) = pvStrBody X := rfl

theorem parseVal_lbracket (g : Nat) (X : List Char) :
    parseVal (g + 1) ('[' :: X) = pvArrBody g X := rfl

theorem parseVal_lbrace (g : Nat) (X : List Char) :
    parseVal (g + 1) ('\x7b' :: X) = pvObjBody g X := rfl

theorem parseItems_succ (g : Nat) (cs : List Char) :
    parseItems (g + 1) cs
      = match parseVal g cs with
        | some (v, r) => piAfterVal g v r
        | none => none := by
  cases hv : parseVal g cs with
  | none =>
    rw [parseItems.eq_def]
    dsimp only []
    rw [hv]
  | some p =>
    obtain ⟨v, r⟩ := p
    rw [parseItems.eq_def]
    dsimp only []
    rw [hv]
    rfl

theorem parseMembers_quote (g : Nat) (X : List Char) :
    parseMembers (g + 1) ('"' :: X) = pmKeyBody g X := rfl

theorem pmKeyBody_step (g : Nat) (k X X2 : List Char)
    (hk : parseJStr X = some (k, ':' :: X2)) :
    pmKeyBody g X = pmAfterColon g k X2 := by
  unfold pmKeyBody
  rw [hk]
  dsimp only []
  rw [skipWsJ_cons_of_not_ws _ (by decide)]
  rfl

theorem pmAfterColon_step (g : Nat) (k : List Char) (v : JVal) (r3 X2 : List Char)
    (hv : parseVal g (skipWsJ X2) = some (v, r3)) :
    pmAfterColon g k X2 = pmAfterVal g k v r3 := by
  unfold pmAfterColon
  rw [hv]
  rfl

theorem pvObjBody_rbrace (g : Nat) (X : List Char) :
    pvObjBody g ('\x7d' :: X) = some (.jobj [], X) := rfl

theorem pvObjBody_quote (g : Nat) (Y : List Char) :
    pvObjBody g ('"' :: Y)
      = match parseMembers g ('"' :: Y) with
        | some (ms, r1) => some (.jobj ms, r1)
        | none => none := rfl

theorem pvArrBody_lbrace (g : Nat) (Y : List Char) :
    pvArrBody g ('\x7b' :: Y)
      = match parseItems g ('\x7b' :: Y) with
        | some (vs, r1) => some (.jarr vs, r1)
        | none => none := rfl

theorem piAfterVal_nl_rb (g : Nat) (v : JVal) (X : List Char) :
    piAfterVal g v ('\n' :: ']' :: X) = some ([v], X) := rfl

theorem piAfterVal_comma (g : Nat) (v : JVal) (X : List Char) :
    piAfterVal g v (',' :: X)
      = match parseItems g (skipWsJ X) with
        | some (vs, r2) => some (v :: vs, r2)
        | none => none := rfl

theorem pmAfterKey_colon (g : Nat) (k X : List Char) :
    (match skipWsJ (':' :: X) with
      | ':' :: r2 => pmAfterColon g k r2
      | _ => none) = pmAfterColon g k X := rfl

theorem pmAfterVal_comma (g : Nat) (k : List Char) (v : JVal) (X : List Char) :
    pmAfterVal g k v (',' :: X)
      = match parseMembers g (skipWsJ X) with
        | some (ms, r5) => some ((k, v) :: ms, r5)
        | none => none := rfl

theorem pmAfterVal_rbrace (g : Nat) (k : List Char) (v : JVal) (X : List Char) :
    pmAfterVal g k v ('\x7d' :: X) = some ([(k, v)], X) := rfl

theorem rt_parseVal_str (v rest : List Char) (f : Nat) (hf : 1 ≤ f)
    (hplain : ∀ c ∈ v, plainChar c = true) :
    parseVal f ('"' :: (v ++ '"' :: rest)) = some (JVal.jstr v, rest) := by
  obtain ⟨g, rfl⟩ : ∃ g, f = g + 1 := ⟨f - 1, by omega⟩
  rw [parseVal_quote]
  unfold pvStrBody
  rw [rt_parseJStr v rest hplain]

theorem rt_parseMembers :
    ∀ (fields : List (List Char × List Char)) (g : Nat) (X : List Char),
    fields ≠ [] → fields.length ≤ g →
    (∀ kv ∈ fields, (∀ c ∈ kv.1, plainChar c = true) ∧ (∀ c ∈ kv.2, plainChar c = true)) →
    parseMembers (g + 1) (List.intercalate [','] (fields.map renderPair) ++ '\x7d' :: X)
      = some (fields.map (fun kv => (kv.1, JVal.jstr kv.2)), X) := by
  intro fields
  induction fields with
  | nil => intro g X hne _ _; exact absurd rfl hne
  | cons kv fs ih =>
    intro g X _ hg hwf
    have hkv := hwf kv (List.mem_cons_self kv fs)
    cases fs with
    | nil =>
      rw [List.map_singleton, intercalate_singleton, renderPair_append,
        parseMembers_quote]
      rw [pmKeyBody_step g kv.1 _ _
        (rt_parseJStr kv.1 (':' :: '"' :: (kv.2 ++ '"' :: '\x7d' :: X)) hkv.1)]
      rw [pmAfterColon_step g kv.1 (JVal.jstr kv.2) ('\x7d' :: X) _
        (by
          rw [skipWsJ_cons_of_not_ws _ (by decide)]
          exact rt_parseVal_str kv.2 ('\x7d' :: X) g (by simpa using hg) hkv.2)]
      rw [pmAfterVal_rbrace]
      rfl
    | cons kv2 fs' =>
      rw [List.map_cons, List.map_cons, intercalate_cons_cons]
      rw [show renderPair kv ++ [','] ++
            List.intercalate [','] (renderPair kv2 :: fs'.map renderPair) ++ '\x7d' :: X
          = renderPair kv ++ (',' ::
            (List.intercalate [','] ((kv2 :: fs').map renderPair) ++ '\x7d' :: X)) by
        simp]
      rw [renderPair_append, parseMembers_quote]
      rw [pmKeyBody_step g kv.1 _ _
        (rt_parseJStr kv.1 _ hkv.1)]
      rw [pmAfterColon_step g kv.1 (JVal.jstr kv.2)
        (',' :: (List.intercalate [','] ((kv2 :: fs').map renderPair) ++ '\x7d' :: X)) _
        (by
          rw [skipWsJ_cons_of_not_ws _ (by decide)]
          exact rt_parseVal_str kv.2 _ g (by have h2 := hg; simp at h2; omega) hkv.2)]
      rw [pmAfterVal_comma]
      rw [skipWsJ_eq_self (by
        intro c hc
        rw [interc_pairs_head kv2 fs' ('\x7d' :: X)] at hc
        cases hc
        decide)]
      obtain ⟨g', rfl⟩ : ∃ g', g = g' + 1 := ⟨g - 1, by simp at hg; omega⟩
      rw [ih g' X (by simp) (by simp at hg ⊢; omega)
        (fun kv' hkv' => hwf kv' (List.mem_cons_of_mem kv hkv'))]
      simp

theorem renderObj_append (fields : List (List Char × List Char)) (X : List Char) :
    renderObj fields ++ X
      = '\x7b' :: (List.intercalate [','] (fields.map renderPair) ++ '\x7d' :: X) := by
  simp [renderObj]

theorem rt_renderObj (g : Nat) (fields : List (List Char × List Char)) (X : List Char)
    (hg : fields.length + 1 ≤ g)
    (hwf : ∀ kv ∈ fields, (∀ c ∈ kv.1, plainChar c = true) ∧
      (∀ c ∈ kv.2, plainChar c = true)) :
    parseVal (g + 1) (renderObj fields ++ X) = some (objToJVal fields, X) := by
  rw [renderObj_append, parseVal_lbrace]
  cases fields with
  | nil =>
    rw [show List.intercalate [','] (([] : List (List Char × List Char)).map renderPair)
          ++ '\x7d' :: X = '\x7d' :: X by simp [List.intercalate]]
    rw [pvObjBody_rbrace]
    rfl
  | cons kv fs =>
    unfold pvObjBody
    rw [skipWsJ_eq_self (by
      intro c hc
      rw [interc_pairs_head kv fs ('\x7d' :: X)] at hc
      cases hc
      decide)]
    obtain ⟨hq, hrest⟩ : ∃ Y, List.intercalate [','] ((kv :: fs).map renderPair)
        ++ '\x7d' :: X = '"' :: Y := by
      have hh := interc_pairs_head kv fs ('\x7d' :: X)
      cases he : List.intercalate [','] ((kv :: fs).map renderPair) ++ '\x7d' :: X with
      | nil => rw [he] at hh; cases hh
      | cons c t =>
        rw [he] at hh
        simp at hh
        exact ⟨t, by rw [hh]⟩
    rw [hrest]
    obtain ⟨g', rfl⟩ : ∃ g', g = g' + 1 := ⟨g - 1, by omega⟩
    have hm := rt_parseMembers (kv :: fs) g' X (by simp) (by simp at hg ⊢; omega) hwf
    rw [hrest, parseMembers_quote] at hm
    show (match parseMembers (g' + 1) ('"' :: hq) with
        | some (ms, r1) => some (JVal.jobj ms, r1)
        | none => none) = some (objToJVal (kv :: fs), X)
    rw [parseMembers_quote, hm]
    rfl

theorem interc_objs_head (o : List (List Char × List Char))
    (objs' : List (List (List Char × List Char))) (X : List Char) :
    (List.intercalate [','] ((o :: objs').map renderObj) ++ X).head? = some '\x7b' := by
  cases objs' with
  | nil =>
    rw [List.map_singleton, intercalate_singleton, renderObj_append]
    rfl
  | cons o2 objs'' =>
    rw [List.map_cons, List.map_cons, intercalate_cons_cons]
    rw [show renderObj o ++ [','] ++
          List.intercalate [','] (renderObj o2 :: objs''.map renderObj) ++ X
        = renderObj o ++ (',' ::
          (List.intercalate [','] (renderObj o2 :: objs''.map renderObj) ++ X)) by simp]
    rw [renderObj_append]
    rfl

theorem itemsFuel_pos (objs : List (List (List Char × List Char))) :
    1 ≤ itemsFuel objs := by
  cases objs with
  | nil => simp [itemsFuel]
  | cons o rest => simp only [itemsFuel, List.foldr_cons]; omega

theorem itemsFuel_cons (o : List (List Char × List Char))
    (rest : List (List (List Char × List Char))) :
    itemsFuel (o :: rest) = o.length + 3 + itemsFuel rest := rfl

theorem rt_parseItems :
    ∀ (objs : List (List (List Char × List Char))) (f : Nat) (X : List Char),
    objs ≠ [] → itemsFuel objs ≤ f →
    (∀ o ∈ objs, ∀ kv ∈ o, (∀ c ∈ kv.1, plainChar c = true) ∧
      (∀ c ∈ kv.2, plainChar c = true)) →
    parseItems f (List.intercalate [','] (objs.map renderObj) ++ '\n' :: ']' :: X)
      = some (objs.map objToJVal, X) := by
  intro objs
  induction objs with
  | nil => intro f X hne _ _; exact absurd rfl hne
  | cons o rest ih =>
    intro f X _ hfuel hwf
    rw [itemsFuel_cons] at hfuel
    have hpos := itemsFuel_pos rest
    obtain ⟨g, rfl⟩ : ∃ g, f = g + 1 := ⟨f - 1, by omega⟩
    obtain ⟨g', rfl⟩ : ∃ g', g = g' + 1 := ⟨g - 1, by omega⟩
    rw [parseItems_succ]
    have hwfo := hwf o (List.mem_cons_self o rest)
    cases rest with
    | nil =>
      rw [List.map_singleton, intercalate_singleton]
      rw [rt_renderObj g' o ('\n' :: ']' :: X) (by omega) hwfo]
      dsimp only []
      rw [piAfterVal_nl_rb]
      simp
    | cons o2 rest' =>
      rw [List.map_cons, List.map_cons, intercalate_cons_cons]
      rw [show renderObj o ++ [','] ++
            List.intercalate [','] (renderObj o2 :: rest'.map renderObj) ++ '\n' :: ']' :: X
          = renderObj o ++ (',' ::
            (List.intercalate [','] ((o2 :: rest').map renderObj) ++ '\n' :: ']' :: X)) by
        simp]
      rw [rt_renderObj g' o _ (by omega) hwfo]
      dsimp only []
      rw [piAfterVal_comma]
      rw [skipWsJ_eq_self (by
        intro c hc
        rw [interc_objs_head o2 rest' ('\n' :: ']' :: X)] at hc
        cases hc
        decide)]
      rw [ih (g' + 1) X (by simp) (by omega)
        (fun o' ho' => hwf o' (List.mem_cons_of_mem o ho'))]
      simp

theorem renderPair_len (kv : List Char × List Char) :
    (renderPair kv).length = kv.1.length + kv.2.length + 5 := by
  simp [renderPair]
  omega

theorem interc_pairs_len_ge :
    ∀ (fields : List (List Char × List Char)),
    fields.length ≤ (List.intercalate [','] (fields.map renderPair)).length := by
  intro fields
  induction fields with
  | nil => simp [List.intercalate]
  | cons kv fs ih =>
    cases fs with
    | nil =>
      rw [List.map_singleton, intercalate_singleton]
      rw [renderPair_len]
      simp
    | cons kv2 fs' =>
      rw [List.map_cons, List.map_cons, intercalate_cons_cons]
      rw [List.map_cons] at ih
      have h1 := renderPair_len kv
      simp only [List.length_append, List.length_cons, List.length_nil] at *
      omega

theorem renderObj_len_ge (o : List (List Char × List Char)) :
    o.length + 2 ≤ (renderObj o).length := by
  have h := interc_pairs_len_ge o
  simp only [renderObj, List.length_cons, List.length_append, List.length_cons,
    List.length_nil]
  omega

theorem itemsFuel_le :
    ∀ (objs : List (List (List Char × List Char))), objs ≠ [] →
    itemsFuel objs ≤ (List.intercalate [','] (objs.map renderObj)).length + 3 := by
  intro objs
  induction objs with
  | nil => intro hne; exact absurd rfl hne
  | cons o rest ih =>
    intro _
    rw [itemsFuel_cons]
    have hobj := renderObj_len_ge o
    cases rest with
    | nil =>
      rw [List.map_singleton, intercalate_singleton]
      simp [itemsFuel]
      omega
    | cons o2 rest' =>
      have hrec := ih (by simp)
      rw [List.map_cons, List.map_cons, intercalate_cons_cons]
      rw [List.map_cons] at hrec
      simp only [List.length_append, List.length_cons, List.length_nil] at *
      omega

theorem pyLstrip_eq_self {s : List Char} (h : ∀ c, s.head? = some c → pyWs c = false) :
    pyLstrip s = s := by
  cases s with
  | nil => rfl
  | cons c t =>
    have hc := h c rfl
    simp [pyLstrip, List.dropWhile_cons, hc]

theorem pyRstrip_eq_self {s : List Char} (h : ∀ c, s.getLast? = some c → pyWs c = false) :
    pyRstrip s = s := by
  unfold pyRstrip
  cases hr : s.reverse with
  | nil =>
    rw [List.reverse_eq_nil_iff] at hr
    subst hr
    rfl
  | cons c t =>
    have hc : s.getLast? = some c := by rw [← List.head?_reverse, hr]; rfl
    have hw := h c hc
    simp only [List.dropWhile_cons, hw, Bool.false_eq_true, if_false]
    rw [← hr, List.reverse_reverse]

theorem pyStrip_eq_self {s : List Char}
    (hh : ∀ c, s.head? = some c → pyWs c = false)
    (hl : ∀ c, s.getLast? = some c → pyWs c = false) :
    pyStrip s = s := by
  unfold pyStrip
  rw [pyLstrip_eq_self hh, pyRstrip_eq_self hl]

theorem interc_objs_snoc :
    ∀ (objs : List (List (List Char × List Char))), objs ≠ [] →
    ∃ A, List.intercalate [','] (objs.map renderObj) = A ++ ['\x7d'] := by
  intro objs
  induction objs with
  | nil => intro h; exact absurd rfl h
  | cons o rest ih =>
    intro _
    cases rest with
    | nil =>
      refine ⟨'\x7b' :: List.intercalate [','] (o.map renderPair), ?_⟩
      rw [List.map_singleton, intercalate_singleton]
      simp [renderObj]
    | cons o2 rest' =>
      obtain ⟨A', hA'⟩ := ih (by simp)
      refine ⟨renderObj o ++ ',' :: A', ?_⟩
      rw [List.map_cons, List.map_cons, intercalate_cons_cons]
      rw [List.map_cons] at hA'
      rw [hA']
      simp

theorem cutBraceComma_none : ∀ {l : List Char}, '\x7d' ∉ l → cutBraceComma l = none := by
  intro l
  induction l with
  | nil => intro _; rfl
  | cons c rest ih =>
    intro h
    have hc : c ≠ '\x7d' := fun he => h (he ▸ List.mem_cons_self c rest)
    rw [cutBraceComma, ih (fun hm => h (List.mem_cons_of_mem c hm))]
    simp [hc]

theorem cutBraceComma_boundary :
    ∀ (A R : List Char), '\x7d' ∉ R →
    cutBraceComma (A ++ '\x7d' :: ',' :: R) = some (A ++ ['\x7d']) := by
  intro A R hR
  induction A with
  | nil =>
    rw [List.nil_append, cutBraceComma]
    rw [@cutBraceComma_none (',' :: R)
      (by
        intro hm
        rcases List.mem_cons.mp hm with h | h
        · exact absurd h (by decide)
        · exact hR h)]
    simp
  | cons a A' ihA =>
    rw [List.cons_append, cutBraceComma, ihA]
    rfl

theorem wfObjs_spec {objs : List (List (List Char × List Char))} (h : wfObjs objs = true) :
    ∀ o ∈ objs, ∀ kv ∈ o, (∀ c ∈ kv.1, plainChar c = true) ∧
      (∀ c ∈ kv.2, plainChar c = true) := by
  intro o ho kv hkv
  simp only [wfObjs, List.all_eq_true, Bool.and_eq_true] at h
  exact ⟨(h o ho kv hkv).1, (h o ho kv hkv).2⟩

theorem pvArrBody_items (g : Nat) (objs : List (List (List Char × List Char)))
    (hne : objs ≠ []) (hfuel : itemsFuel objs ≤ g)
    (hwf : ∀ o ∈ objs, ∀ kv ∈ o, (∀ c ∈ kv.1, plainChar c = true) ∧
      (∀ c ∈ kv.2, plainChar c = true)) :
    pvArrBody g (List.intercalate [','] (objs.map renderObj) ++ '\n' :: ']' :: [])
      = some (JVal.jarr (objs.map objToJVal), []) := by
  cases objs with
  | nil => exact absurd rfl hne
  | cons o rest =>
    unfold pvArrBody
    rw [skipWsJ_eq_self (by
      intro c hc
      rw [interc_objs_head o rest ('\n' :: ']' :: [])] at hc
      cases hc
      decide)]
    obtain ⟨Y, hY⟩ : ∃ Y, List.intercalate [','] ((o :: rest).map renderObj)
        ++ '\n' :: ']' :: ([] : List Char) = '\x7b' :: Y := by
      have hh2 := interc_objs_head o rest ('\n' :: ']' :: [])
      cases he : List.intercalate [','] ((o :: rest).map renderObj)
          ++ '\n' :: ']' :: ([] : List Char) with
      | nil => rw [he] at hh2; cases hh2
      | cons c t =>
        rw [he] at hh2
        simp at hh2
        exact ⟨t, by rw [hh2]⟩
    rw [hY]
    show (match parseItems g ('\x7b' :: Y) with
        | some (vs, r1) => some (JVal.jarr vs, r1)
        | none => none) = some (JVal.jarr ((o :: rest).map objToJVal), [])
    rw [← hY]
    rw [rt_parseItems (o :: rest) g [] (by simp) hfuel hwf]

theorem pyLoads_repaired (objs : List (List (List Char × List Char)))
    (hne : objs ≠ []) (hwf : wfObjs objs = true) :
    pyLoads ('[' :: (List.intercalate [','] (objs.map renderObj) ++ '\n' :: ']' :: []))
      = some (JVal.jarr (objs.map objToJVal)) := by
  unfold pyLoads
  rw [show ('[' :: (List.intercalate [','] (objs.map renderObj)
        ++ '\n' :: ']' :: ([] : List Char))).length + 1
      = ((List.intercalate [','] (objs.map renderObj)
        ++ '\n' :: ']' :: ([] : List Char)).length + 1) + 1 by
    simp]
  rw [parseVal_lbracket]
  rw [pvArrBody_items _ objs hne
    (by
      have hle := itemsFuel_le objs hne
      simp only [List.length_append, List.length_cons, List.length_nil]
      omega)
    (wfObjs_spec hwf)]
  rfl

/-- C5 (amended): for a truncated array response consisting of complete flat
string-valued objects each followed by the `"},"` boundary — i.e. the text is
`[` + the comma-separated rendered objects + `,` + an incomplete remainder that
contains no closing brace and does not end in whitespace or `]` — strategy 4
truncates at the last `"},"` boundary, appends `"\n]"`, and recovers exactly
the complete objects, in order.  (The unamended claim — *all* complete objects
are always recovered — is refuted by `c5_counterexample`: a final complete
object not followed by a comma is dropped, because the repair cuts at the last
`"},"` or at the last `"{"`.) -/
theorem c5_strat4 (objs : List (List (List Char × List Char))) (junk : List Char)
    (hne : objs ≠ [])
    (hwf : wfObjs objs = true)
    (hbrace : '\x7d' ∉ junk)
    (hlastws : ∀ c, (',' :: junk).getLast? = some c → pyWs c = false)
    (hlastrb : (',' :: junk).getLast? ≠ some ']') :
    strat4 (truncArray objs junk) = some (JVal.jarr (objs.map objToJVal)) := by
  have hgl : (truncArray objs junk).getLast? = (',' :: junk).getLast? := by
    show (('[' :: List.intercalate [','] (objs.map renderObj))
        ++ ',' :: junk).getLast? = _
    exact List.getLast?_append_of_ne_nil _ (by simp)
  have htext : pyStrip (truncArray objs junk) = truncArray objs junk :=
    pyStrip_eq_self
      (by
        intro c hc
        rw [show (truncArray objs junk).head? = some '[' from rfl] at hc
        cases hc
        decide)
      (by
        intro c hc
        rw [hgl] at hc
        exact hlastws c hc)
  obtain ⟨A, hA⟩ := interc_objs_snoc objs hne
  have hcut : cutBraceComma (truncArray objs junk)
      = some ('[' :: List.intercalate [','] (objs.map renderObj)) := by
    show cutBraceComma ('[' :: (List.intercalate [','] (objs.map renderObj)
        ++ ',' :: junk)) = _
    rw [hA]
    rw [show ('[' : Char) :: ((A ++ ['\x7d']) ++ ',' :: junk)
        = ('[' :: A) ++ '\x7d' :: ',' :: junk by simp]
    rw [cutBraceComma_boundary ('[' :: A) junk hbrace]
    simp
  unfold strat4
  dsimp only []
  rw [htext]
  rw [if_pos ⟨rfl, by rw [hgl]; exact hlastrb⟩]
  rw [hcut]
  dsimp only []
  rw [show ('[' :: List.intercalate [','] (objs.map renderObj)) ++ '\n' :: [']']
      = '[' :: (List.intercalate [','] (objs.map renderObj) ++ '\n' :: ']' :: []) by
    simp]
  rw [pyLoads_repaired objs hne hwf]

/-- C5 counterexample to the unamended claim: the text `[{"a": 1}` starts with
`[`, does not end with `]`, and contains one complete object — which does
parse on its own — yet strategy 4 returns the empty list: with no `"},"`
boundary present it truncates at the last `"{"`, discarding the object. -/
theorem c5_counterexample :
    pyLoads (pys "\x7b\"a\": 1\x7d")
      = some (JVal.jobj [(pys "a", JVal.jnum true ⟨1, 0⟩)]) ∧
    strat4 (pys "[\x7b\"a\": 1\x7d") = some (JVal.jarr []) :=
  ⟨rfl, rfl⟩

theorem c5_strat4_witness :
    strat4 (truncArray [[(pys "a", pys "1")]] (pys "\x7b\"b\""))
      = some (JVal.jarr [JVal.jobj [(pys "a", JVal.jstr (pys "1"))]]) := by
  have h := c5_strat4 [[(pys "a", pys "1")]] (pys "\x7b\"b\"")
    (by simp)
    (by decide)
    (by decide)
    (by
      intro c hc
      rw [show ((',' :: pys "\x7b\"b\"").getLast? = some '"') from rfl] at hc
      cases hc
      decide)
    (by decide)
  simpa [objToJVal] using h
